import Mathlib

/-!
# Verification of the `rear_view` DNS forwarder (superpowers)

Shallow embedding of the core of the `superpowers` DNS forwarder:

* `SuperUDPListener.handle_request` (superpowers.py) — the per-query pipeline;
* `Nets` / `Node` / `Scope` (superpowers/nets.py) — the longest-prefix scope
  database;
* `Associations` / `Association` (superpowers/shodohflo.py) — the two-queue
  expiring cache;
* `Superpower.follow_chains` / `Superpower.query` (superpowers/shodohflo.py) —
  the chain resolver;
* the PTR qname decoding performed in `Powers.__init__`
  (superpowers/__init__.py).

Python strings are modelled as Lean `String`s (or `List Char` where we need
to reason about the character-level operations `replace` / `split` / `join`),
Python `float` time/ttl values as rationals, Python lists as Lean lists, and
Python dicts as association lists.  `random.random()` and `time.time()` are
modelled as explicit parameters.  Code paths that raise exceptions are
modelled with `Except`/`Option`.
-/

namespace RearView

/-! ## Pipeline model: `SuperUDPListener.handle_request` (superpowers.py)

A `Power`'s `query` either returns a string or raises; `Powers.exec`
(superpowers/__init__.py) iterates the powers without any exception
handling, so a raise propagates out of `handle_request`.
-/

/-- Outcome of one `Power.query` call: a returned string, or an exception. -/
inductive PQ where
  | ok (s : String)
  | raise
deriving DecidableEq, Repr

/-- The data `handle_request` reads from the parsed request via `Powers`:
whether the qtype is PTR, whether `config.nets.find` returned a scope, and
the scope's mode / fqdn / powers.  Each configured power is represented by
the outcome its `query` would produce for this request's address.
An empty `scopePowers` models both `powers: null` and an empty powers list
(both make `Powers.__call__` return false). -/
structure HReq where
  isPTR : Bool
  scopeFound : Bool
  scopeMode : String
  scopeFqdn : String
  scopePowers : List PQ
deriving DecidableEq, Repr

/-- `Powers.__call__`: `self.powers is not None`.  `Powers.__init__` sets
`powers` to `None` for non-PTR requests, for addresses with no scope, and
for scopes whose powers list is empty/None. -/
def powersB (q : HReq) : Bool :=
  q.isPTR && q.scopeFound && !q.scopePowers.isEmpty

/-- `Powers.exec`: iterate the powers; the first non-empty `query` result is
kept (with a trailing dot appended if absent).  A raising `query` propagates
(there is no try/except in the source). -/
def execPowers : List PQ → Except Unit (Option String)
  | [] => .ok none
  | .raise :: _ => .error ()
  | .ok s :: rest =>
      if s = "" then execPowers rest
      else .ok (some (if s.endsWith "." then s else s ++ "."))

/-- Upstream exchange behaviour: a parsed response with an RCODE, or a
failure (connect/read error or unparseable response bytes — all of which
raise in `handle_request`). -/
inductive Up where
  | ok (rcode : Nat)
  | fail
deriving DecidableEq, Repr

/-- The datagram sent back to the client, if any. -/
inductive Sent where
  | powerAnswer (fqdn : String)
  | upstreamBytes (rcode : Nat)
  | fallbackAnswer (fqdn : String)
  | nxdomain
deriving DecidableEq, Repr

/-- Observable outcome of one `handle_request` task: whether
`asyncio.open_connection` to the upstream resolver was reached, what (if
anything) was sent with `transport.sendto`, and whether an exception
escaped the task (in which case nothing is sent). -/
structure HTrace where
  openedUpstream : Bool
  sent : Option Sent
  raised : Bool
deriving DecidableEq, Repr

/-- Python `str.strip('.')`: remove leading and trailing dots. -/
def pyStripDots (s : String) : String :=
  (((s.toList.dropWhile (· = '.')).reverse.dropWhile (· = '.')).reverse).asString

/-- `Powers.fqdn`: `scope.fqdn and scope.fqdn.endswith('.') and scope.fqdn
or scope.fqdn+'.'`. -/
def powersFqdn (q : HReq) : String :=
  if q.scopeFqdn ≠ "" ∧ q.scopeFqdn.endsWith "." then q.scopeFqdn
  else q.scopeFqdn ++ "."

/-- Fallback-FQDN stage and NXDOMAIN stage of `handle_request`. -/
def stepFallback (q : HReq) (opened : Bool) : HTrace :=
  if powersB q && (pyStripDots (powersFqdn q) != "") then
    ⟨opened, some (.fallbackAnswer (powersFqdn q)), false⟩
  else
    ⟨opened, some .nxdomain, false⟩

/-- Mode-`last` stage of `handle_request` (runs when the upstream answer had
a non-zero RCODE), falling through to the fallback stages. -/
def stepLast (q : HReq) (opened : Bool) : HTrace :=
  if powersB q && (q.scopeMode == "last") then
    match execPowers q.scopePowers with
    | .error _ => ⟨opened, none, true⟩
    | .ok (some s) => ⟨opened, some (.powerAnswer s), false⟩
    | .ok none => stepFallback q opened
  else stepFallback q opened

/-- Upstream stage of `handle_request`: guarded by
`not powers() or powers.mode != 'always'`.  An upstream failure raises out
of the task (connection errors and `dns.message.from_wire` errors are not
caught).  When the upstream RCODE is 0, or no powers apply, or the mode is
`never`, the upstream bytes are relayed verbatim. -/
def stepUpstream (q : HReq) (u : Up) : HTrace :=
  if !powersB q || (q.scopeMode != "always") then
    match u with
    | .fail => ⟨true, none, true⟩
    | .ok rc =>
        if rc == 0 || !powersB q || (q.scopeMode == "never") then
          ⟨true, some (.upstreamBytes rc), false⟩
        else stepLast q true
  else stepLast q false

/-- `SuperUDPListener.handle_request` (superpowers.py, lines 69–125),
stated over the parsed request data and the upstream behaviour. -/
def handleRequest (q : HReq) (u : Up) : HTrace :=
  if powersB q && (q.scopeMode == "first" || q.scopeMode == "always") then
    match execPowers q.scopePowers with
    | .error _ => ⟨false, none, true⟩
    | .ok (some s) => ⟨false, some (.powerAnswer s), false⟩
    | .ok none => stepUpstream q u
  else stepUpstream q u

/-- Whether building the synthesized answer raises:
`dns.rrset.from_text_list(name, TTL, 'IN', 'PTR', [text])` parses the
answer text with the dnspython library (absent from src/), abstracted as
the oracle `synth` (`true` = raises on that text).  Only the power-answer
and fallback-answer paths go through `from_text_list`; relaying upstream
bytes and the NXDOMAIN synthesis parse no text. -/
def synthSent (synth : String → Bool) : Option Sent → Bool
  | some (.powerAnswer s) => synth s
  | some (.fallbackAnswer s) => synth s
  | _ => false

/-- The full `handle_request` task over a parseable request.
`Powers.__init__` runs first (superpowers.py line 72): for a PTR question
it decodes the qname and calls `ipaddress.ip_address` on the result
(superpowers/__init__.py line 131), which raises `ValueError` whenever the
qname is not an encoded address (e.g. `example.com.` decodes to
`.com.example`); the raise is uncaught, the task dies before any stage
runs, and nothing is sent.  `addrDecodes` abstracts that outcome.  After
the staged pipeline, a synthesized answer whose text `from_text_list`
rejects likewise kills the task at the synthesis point, before `sendto`. -/
def handleFull (synth : String → Bool) (q : HReq) (addrDecodes : Bool)
    (u : Up) : HTrace :=
  if q.isPTR && !addrDecodes then ⟨false, none, true⟩
  else
    let t := handleRequest q u
    if synthSent synth t.sent then ⟨t.openedUpstream, none, true⟩ else t

/-! ## PTR qname decoding (`Powers.__init__`, superpowers/__init__.py)

`Powers.__init__` turns the question name into an address with

    '.'.join(reversed(qname.replace('.in-addr.arpa.','').split('.')))

We model Python strings as `List Char` and implement `str.replace`
(all non-overlapping occurrences, left to right), `str.split(sep)` and
`sep.join` directly. -/

/-- Python `str.split(sep)` for a one-character separator. -/
def pySplit (sep : Char) : List Char → List (List Char)
  | [] => [[]]
  | c :: rest =>
      if c = sep then [] :: pySplit sep rest
      else
        match pySplit sep rest with
        | [] => [[c]]
        | g :: gs => (c :: g) :: gs

/-- Python `sep.join(groups)` for a one-character separator. -/
def pyJoin (sep : Char) : List (List Char) → List Char
  | [] => []
  | [g] => g
  | g :: gs => g ++ sep :: pyJoin sep gs

/-- Python `str.replace(pat, rep)`: replace all non-overlapping occurrences
of `pat` from the left.  The pattern is passed as head and tail so it is
non-empty by construction. -/
def pyReplace (p : Char) (ps rep : List Char) : List Char → List Char
  | [] => []
  | c :: rest =>
      if (p :: ps).isPrefixOf (c :: rest) then
        rep ++ pyReplace p ps rep (rest.drop ps.length)
      else c :: pyReplace p ps rep rest
  termination_by s => s.length
  decreasing_by
    all_goals simp only [List.length_drop, List.length_cons]
    · omega
    · omega

/-- Decimal digit character. -/
def digitChar : Nat → Char
  | 0 => '0' | 1 => '1' | 2 => '2' | 3 => '3' | 4 => '4'
  | 5 => '5' | 6 => '6' | 7 => '7' | 8 => '8' | _ => '9'

/-- Decimal rendering of a natural number (as Python `str(int)`). -/
def natChars (n : Nat) : List Char :=
  if n < 10 then [digitChar n]
  else natChars (n / 10) ++ [digitChar (n % 10)]
  decreasing_by exact Nat.div_lt_self (by omega) (by omega)

/-- The tail of the pattern `'.in-addr.arpa.'`. -/
def inAddr : List Char := "in-addr.arpa.".toList

/-- The address text computed by `Powers.__init__` from the question name
(before `ipaddress.ip_address` parses it). -/
def decodeQname (q : List Char) : List Char :=
  pyJoin '.' (List.reverse (pySplit '.' (pyReplace '.' inAddr [] q)))

/-- Modelled from the spec: the Wire Codec's reverse mapping (spec §4.1 and
glossary) — an address `a.b.c.d` is encoded as the PTR qname
`d.c.b.a.in-addr.arpa.`.  src/ contains only the decoding direction
(`Powers.__init__`); this is its inverse, built with the same string
primitives. -/
def encodeQname (addr : List Char) : List Char :=
  pyJoin '.' (List.reverse (pySplit '.' addr)) ++ '.' :: inAddr

/-- The canonical qname `d.c.b.a.in-addr.arpa.` for the address `a.b.c.d`. -/
def qnameOf (a b c d : Nat) : List Char :=
  natChars d ++ ('.' :: (natChars c ++ ('.' :: (natChars b ++
    ('.' :: (natChars a ++ ('.' :: inAddr)))))))

/-- The canonical text of the address `a.b.c.d`. -/
def addrTextOf (a b c d : Nat) : List Char :=
  natChars a ++ ('.' :: (natChars b ++ ('.' :: (natChars c ++
    ('.' :: natChars d)))))

/-- Characters that may appear left of the `.in-addr.arpa.` suffix of a
well-formed PTR qname. -/
def dotOrDigit (c : Char) : Prop := c = '.' ∨ c.isDigit = true

namespace Shodohflo

/-! ## ShoDoHFlo chain resolver (superpowers/shodohflo.py)

`Superpower.follow_chains` walks `target → fqdns` edges recursively,
`Superpower.query` ranks the collected chains.  The association store is
modelled as an association list `target ↦ fqdns` (the test suite populates
`Associations.index` directly and calls `query` with a string address, which
is the behaviour embedded here).  The recursion of `follow_chains` is not
structurally bounded, so it is embedded with an explicit fuel parameter:
`none` means the fuel ran out. -/


/-- The association store: `target ↦ fqdns` (the `fqdns` field of
`Associations.index[target]`). -/
abbrev Store := List (String × List String)

/-- The `for association in associations.fqdns` loop of `follow_chains`:
if the next name is already on the path and the path has not been recorded,
record it and stop; otherwise recurse (through `next`, the chain walker one
fuel level down) on the extended path and continue the loop. -/
def goFqdns (next : List String → List (List String) → Option (List (List String))) :
    List String → List String → List (List String) → Option (List (List String))
  | [], _, chains => some chains
  | a :: rest, root, chains =>
      if a ∈ root ∧ root ∉ chains then some (chains ++ [root])
      else
        match next (root ++ [a]) chains with
        | none => none
        | some c => goFqdns next rest root c

/-- `Superpower.follow_chains(root, chains)` (fuelled).  `root` is the path
walked so far (never empty: it starts at `[address]` and only grows);
`chains` accumulates complete chains.  The fuel bounds the recursion depth;
`none` means it ran out. -/
def followChains (store : Store) : Nat → List String → List (List String) →
    Option (List (List String))
  | 0, _, _ => none
  | f + 1, root, chains =>
      match store.lookup (root.getLastD "") with
      | none => some (if 1 < root.length then chains ++ [root] else chains)
      | some fqdns => goFqdns (followChains store f) fqdns root chains

/-- Labels of a name, reversed (`reversed(s.split('.'))` in
`Superpower.match_len`). -/
def revLabels (s : String) : List (List Char) :=
  (RearView.pySplit '.' s.toList).reverse

/-- Length of the common prefix of two lists (the loop in
`Superpower.match_len`). -/
def commonPrefixLen : List (List Char) → List (List Char) → Nat
  | a :: as, b :: bs => if a = b then commonPrefixLen as bs + 1 else 0
  | _, _ => 0

/-- `Superpower.match_len(chain)`: the number of labels shared, from the
TLD inward, by the last two elements of the chain.  (`chain[-2:]` — all
chains handed to it have length ≥ 2; shorter input is mapped to 0.) -/
def matchLen (chain : List String) : Nat :=
  match chain.reverse with
  | cur :: prev :: _ => commonPrefixLen (revLabels prev) (revLabels cur)
  | _ => 0

/-- Maximum of a list of naturals as computed by Python `max(keys)` (the
keys all come from non-empty collections; the 0 default is never the
result on the inputs that occur). -/
def listMax (l : List Nat) : Nat := l.foldl Nat.max 0

/-- Minimum of a non-empty list of naturals (`min(keys)`). -/
def listMin (l : List Nat) : Nat := l.foldl Nat.min (l.headD 0)

/-- `max_length = max(lengths.keys())`: the length of the longest chain. -/
def chainsMaxLen (chains : List (List String)) : Nat :=
  listMax (chains.map List.length)

/-- `candidates = list(lengths[max_length])`: the chain indices of maximal
length, ascending. -/
def cand1 (chains : List (List String)) : List Nat :=
  (List.range chains.length).filter
    (fun i => (chains.getD i []).length = chainsMaxLen chains)

/-- `min_match = min(lengths.keys())` over the maximal-length candidates. -/
def chainsMinMatch (chains : List (List String)) : Nat :=
  listMin ((cand1 chains).map (fun ci => matchLen (chains.getD ci [])))

/-- `candidates = list(lengths[min_match])`: the second-stage survivor set.
These are *positions into* the first candidate list (ascending), which the
final stage nevertheless uses directly as chain indices. -/
def cand2 (chains : List (List String)) : List Nat :=
  (List.range (cand1 chains).length).filter
    (fun i => matchLen (chains.getD ((cand1 chains).getD i 0) [])
      = chainsMinMatch chains)

/-- The character count (Python `len`) of the final name of the chain at
index `p`. -/
def lenLast (chains : List (List String)) (p : Nat) : Nat :=
  ((chains.getD p []).getLastD "").length

/-- The final stage's keys `len(chains[candidate][-1])`, in the enumerate
order of the second-stage survivors, each position aliased as a chain
index. -/
def finalKeys (chains : List (List String)) : List Nat :=
  (cand2 chains).map (lenLast chains)

/-- The spec's concrete three-fqdn store. -/
def c7Store : Store :=
  [("1.2.3.4", ["x.example.com", "example.com", "y.example.com"])]

/-- The chains `follow_chains` collects on `c7Store` from `1.2.3.4`. -/
def c7Chains : List (List String) :=
  [["1.2.3.4", "x.example.com"], ["1.2.3.4", "example.com"],
   ["1.2.3.4", "y.example.com"]]

/-- The tie-break ladder of `Superpower.query` over the collected chains.
`DictOfSets` buckets keyed by ints are modelled by index lists in
ascending order (CPython small-int sets iterate in ascending order for the
index sets that occur here, and `set.pop` returns the first element).
Index lists into `chains` are materialised with `List.range`+`filter`.
`none` models the exceptions the source can raise on this path
(`NameError` on `min_match` when `max_length < 2`, `IndexError` on an
empty chain). -/
def resolveChains (chains : List (List String)) : Option String :=
  if chains.length = 0 then some ""
  else if chains.length = 1 then (chains.getD 0 []).getLast?
  else
    if (cand1 chains).length = 1 then
      (chains.getD ((cand1 chains).getD 0 0) []).getLast?
    else
      if 2 ≤ chainsMaxLen chains then
        if (cand2 chains).length = 1 then
          (chains.getD ((cand1 chains).getD ((cand2 chains).getD 0 0) 0) []).getLast?
        else
          -- `candidates = list(lengths[min_match])` rebinds `candidates` to
          -- positions into the previous candidate list, but the final stage
          -- indexes `chains` with those positions directly.
          match (finalKeys chains).findIdx?
              (fun k => k = listMin (finalKeys chains)) with
          | none => none
          | some i => (chains.getD ((cand2 chains).getD i 0) []).getLast?
      else none

/-- `Superpower.query(address)` (fuelled through `followChains`). -/
def query (f : Nat) (store : Store) (address : String) : Option String :=
  match followChains store f [address] [] with
  | none => none
  | some chains => resolveChains chains

/-- Termination of the chain walker on a given store and start address:
some fuel suffices. -/
def FollowTerminates (store : Store) (address : String) : Prop :=
  ∃ f, (followChains store f [address] []).isSome = true

/-- Totality of `query` on a given store and start address: some fuel makes
it produce a value (and in particular no exception path is taken). -/
def QueryTotal (store : Store) (address : String) : Prop :=
  ∃ f, (query f store address).isSome = true

/-! ### C10: termination of the chain walker

The loop-detection test `if association in root` is defeated when an
`fqdns` list contains the same name twice: with
`store₂ = {a → [b,b], b → [b,b]}` the second iteration finds the current
path already recorded in `chains` and recurses with a lengthened path, and
this pumping repeats forever.  We prove `followChains` exhausts *every*
fuel on `store₂`, and that it terminates whenever all `fqdns` lists are
duplicate-free. -/

/-- The divergence store `{a → [b,b], b → [b,b]}`. -/
def store₂ : Store := [("a", ["b", "b"]), ("b", ["b", "b"])]

/-- The pumped path `a, b, b, …, b` (`k` copies of `b`). -/
def pumpRoot (k : Nat) : List String := "a" :: List.replicate k "b"

/-- The pumped chains accumulator `[pumpRoot 1, …, pumpRoot m]`. -/
def pumpChains (m : Nat) : List (List String) :=
  (List.range m).map (fun j => pumpRoot (j + 1))

/-! Termination of the walker on duplicate-free stores.  The key facts:
every call appends only chains that extend its root, so the current path is
never found in `chains` when the loop reaches an in-path name — the
loop-detection branch then fires — and plain recursion always extends the
path with a store name not yet on it. -/

/-- All names occurring in `fqdns` lists of the store. -/
def namesOf (store : Store) : List String := (store.map Prod.snd).flatten

/-! ## The association cache (`Association` / `Associations`,
superpowers/shodohflo.py)

Timestamps and TTLs are rationals; `time.time()` and `random.random()`
become explicit `now` / `r` parameters of each operation.  The store keeps
an index (`dict`, modelled as an association list preserving insertion
order) and two lists of *references* to the same `Association` objects; as
the index is keyed by the unique `target` of each object, the reference
lists are modelled as lists of targets resolved through the index.
Operations that would raise in Python (`self.expiry.pop(0)` /
`self.expiry[0]` on an empty list) return an error value; looking up a
list entry whose target is missing from the index cannot happen in Python
(the lists hold object references) and is also an error value, shown
unreachable from the empty store. -/

/-- `Association.expiry()`: `time() + self.ttl * (0.95 + 0.1 * random())`. -/
def expiryAt (now ttl r : ℚ) : ℚ := now + ttl * (95/100 + (1/10) * r)

/-- A single association (`Association.__init__` fields). -/
structure Association where
  target : String
  fqdns : List String
  ttl : ℚ
  expires : ℚ
  orig_expires : ℚ
deriving DecidableEq, Repr

/-- `Association.__init__(target, fqdns, ttl)` at time `now` with random
draw `r`: `expires` and `orig_expires` both get the jittered expiry. -/
def Association.make (target : String) (fqdns : List String)
    (ttl now r : ℚ) : Association :=
  { target := target, fqdns := fqdns, ttl := ttl
    expires := expiryAt now ttl r, orig_expires := expiryAt now ttl r }

/-- `Association.update(fqdns)`: replace the fqdns and re-jitter `expires`;
`orig_expires` is untouched. -/
def Association.update (a : Association) (fqdns : List String)
    (now r : ℚ) : Association :=
  { a with fqdns := fqdns, expires := expiryAt now a.ttl r }

/-- `Association.moving()`: `orig_expires = expires`. -/
def Association.moving (a : Association) : Association :=
  { a with orig_expires := a.expires }

/-- `Association.updated`: `expires != orig_expires`. -/
def Association.updated (a : Association) : Bool :=
  decide (a.expires ≠ a.orig_expires)

/-- `Associations`: the index plus the two expiry lists (by target). -/
structure Associations where
  index : List (String × Association)
  expiry : List String
  new_expiry : List String
deriving DecidableEq, Repr

/-- `Associations.__init__`. -/
def Associations.empty : Associations := ⟨[], [], []⟩

/-- `MAX_ASSOCS` module constant (shodohflo.py line 46).  Note that
`Associations.purge` uses this module constant, not the configured
`self.max_assocs`. -/
def MAX_ASSOCS : Nat := 5000

/-- `Superpower.__init__`: `self.max_assocs = self.config.get('max_assocs',
MAX_ASSOCS)` — the configured value (which `purge` never consults). -/
def configuredMaxAssocs (cfg : Option Nat) : Nat := cfg.getD MAX_ASSOCS

/-- Python dict assignment `d[k] = v`: replace in place if the key exists
(dicts preserve insertion position), else append. -/
def indexSet : List (String × Association) → String → Association →
    List (String × Association)
  | [], t, a => [(t, a)]
  | (k, v) :: rest, t, a =>
      if k = t then (k, a) :: rest else (k, v) :: indexSet rest t a

/-- Python `del d[k]`. -/
def indexDel : List (String × Association) → String →
    List (String × Association)
  | [], _ => []
  | (k, v) :: rest, t => if k = t then rest else (k, v) :: indexDel rest t

/-- The exceptional outcomes of the cache operations: an `IndexError` from
popping/indexing an empty `expiry` list, a list entry whose target is
not in the index (unrepresentable in Python, where the lists hold object
references), or the model's fuel running out. -/
inductive CacheErr where
  | popEmpty
  | danglingRef
  | fuelOut
deriving DecidableEq, Repr

/-- `Associations.remove_one`: pop the head of `expiry`; a refreshed item
(`updated`) is appended to `new_expiry` (its `orig_expires` untouched),
otherwise the item is deleted from the index. -/
def remove_one (st : Associations) : Except CacheErr Associations :=
  match st.expiry with
  | [] => .error .popEmpty
  | t :: rest =>
      match st.index.lookup t with
      | none => .error .danglingRef
      | some item =>
          if item.updated then
            .ok { st with expiry := rest, new_expiry := st.new_expiry ++ [t] }
          else
            .ok { index := indexDel st.index t, expiry := rest
                  new_expiry := st.new_expiry }

/-- Stable insertion into a list sorted ascending by `key` (equal keys keep
their original relative order, as Python's stable `sorted` does). -/
def insertByKey (key : String → ℚ) (x : String) : List String → List String
  | [] => [x]
  | y :: ys => if key x ≤ key y then x :: y :: ys else y :: insertByKey key x ys

/-- Stable sort by `key`, ascending (Python `sorted(..., key=...)`). -/
def sortByKey (key : String → ℚ) : List String → List String
  | [] => []
  | x :: xs => insertByKey key x (sortByKey key xs)

/-- `Associations.rotate_lists`: call `moving()` on every entry of
`new_expiry`, sort `new_expiry` by `orig_expires` and promote it to
`expiry`. -/
def rotate_lists (st : Associations) : Associations :=
  let index' := st.index.map
    (fun kv => if kv.1 ∈ st.new_expiry then (kv.1, kv.2.moving) else kv)
  { index := index'
    expiry := sortByKey
      (fun t => ((index'.lookup t).map Association.orig_expires).getD 0)
      st.new_expiry
    new_expiry := [] }

/-- Whether the association a list entry refers to is `updated`. -/
def updatedIn (st : Associations) (t : String) : Bool :=
  ((st.index.lookup t).map Association.updated).getD false

/-- Fuel for the `purge` loop: each iteration strictly decreases this
weight (an `updated` entry of `expiry` is popped, re-queued, rotated and
popped again, so it weighs 3; a `new_expiry` entry weighs 2; anything else
is popped once). -/
def purgeMeasure (st : Associations) : Nat :=
  (st.expiry.map (fun t => if updatedIn st t then 3 else 1)).sum
    + 2 * st.new_expiry.length

/-- The `while` loop of `Associations.purge`: while the head of `expiry`
has `orig_expires <= now` or the index holds more than `MAX_ASSOCS`
entries, `remove_one`; when `expiry` empties, stop if the index is empty,
else `rotate_lists` and continue. -/
def purgeLoop : Nat → Associations → ℚ → Except CacheErr Associations
  | 0, _, _ => .error .fuelOut
  | fuel + 1, st, now =>
      match st.expiry with
      | [] => .error .popEmpty
      | t :: _ =>
          match st.index.lookup t with
          | none => .error .danglingRef
          | some item =>
              if item.orig_expires ≤ now ∨ MAX_ASSOCS < st.index.length then
                match remove_one st with
                | .error e => .error e
                | .ok st' =>
                    if st'.expiry = [] then
                      if st'.index = [] then .ok st'
                      else purgeLoop fuel (rotate_lists st') now
                    else purgeLoop fuel st' now
              else .ok st

/-- `Associations.purge` at time `now` (the loop gets enough fuel for every
state reachable from the empty store, as proved below). -/
def purge (st : Associations) (now : ℚ) : Except CacheErr Associations :=
  if st.index = [] then .ok st
  else purgeLoop (purgeMeasure st + 1) st now

/-- `Associations.add` for a record already reduced to its derived
`target`/`fqdns` (the lower-cased, dot-stripped strings the caller builds
from the artifact): purge, then update in place or create and append to
`new_expiry` if non-empty else `expiry`. -/
def add (st : Associations) (target : String) (fqdns : List String)
    (ttl now r : ℚ) : Except CacheErr Associations :=
  match purge st now with
  | .error e => .error e
  | .ok st' =>
      match st'.index.lookup target with
      | some a =>
          .ok { st' with index := indexSet st'.index target (a.update fqdns now r) }
      | none =>
          if st'.new_expiry = [] then
            .ok { index := indexSet st'.index target
                    (Association.make target fqdns ttl now r)
                  expiry := st'.expiry ++ [target]
                  new_expiry := st'.new_expiry }
          else
            .ok { index := indexSet st'.index target
                    (Association.make target fqdns ttl now r)
                  expiry := st'.expiry
                  new_expiry := st'.new_expiry ++ [target] }

/-- The operations a client can perform on the store (`Associations.get`
reads the index and does not mutate). -/
inductive CacheOp where
  | add (target : String) (fqdns : List String) (ttl now r : ℚ)
  | purge (now : ℚ)
  | get (k : String)
deriving DecidableEq, Repr

def runOp (st : Associations) : CacheOp → Except CacheErr Associations
  | .add t fq ttl now r => add st t fq ttl now r
  | .purge now => purge st now
  | .get _ => .ok st

def runOps : Associations → List CacheOp → Except CacheErr Associations
  | st, [] => .ok st
  | st, op :: ops =>
      match runOp st op with
      | .error e => .error e
      | .ok st' => runOps st' ops

/-- The representation invariant of the two-queue store: index keys are
unique, and the concatenated expiry lists are a permutation of the index
keys (every `Association` is reachable through exactly one list). -/
def INV (st : Associations) : Prop :=
  (st.index.map Prod.fst).Nodup ∧
  (st.expiry ++ st.new_expiry).Perm (st.index.map Prod.fst)

/-! ### C5: the `expires ≥ orig_expires` invariant -/

/-- Operation trace of a single `Association` after its creation. -/
inductive AssocOp where
  | upd (fqdns : List String) (now r : ℚ)
  | mov
deriving DecidableEq, Repr

def applyOps : Association → List AssocOp → Association
  | a, [] => a
  | a, .upd fq now r :: ops => applyOps (a.update fq now r) ops
  | a, .mov :: ops => applyOps a.moving ops

/-- Operation times never run backwards and random draws lie in `[0, 1]`. -/
def OpsBounded : ℚ → List AssocOp → Prop
  | _, [] => True
  | t, .upd _ now r :: ops => t ≤ now ∧ 0 ≤ r ∧ r ≤ 1 ∧ OpsBounded now ops
  | t, .mov :: ops => OpsBounded t ops

/-- The slack invariant that actually holds along an association's life. -/
def AssocInv (ttl tmin : ℚ) (a : Association) : Prop :=
  a.ttl = ttl ∧ a.expires ≤ tmin + ttl * (105/100) ∧
  a.orig_expires ≤ tmin + ttl * (105/100) ∧
  a.orig_expires - ttl / 10 ≤ a.expires

/-- The state `purge` stops in: an empty store, or a store within the
`MAX_ASSOCS` bound whose `expiry` head has `orig_expires > now`. -/
def PurgePost (now : ℚ) (st : Associations) : Prop :=
  st.index = [] ∨
    (st.index.length ≤ MAX_ASSOCS ∧
      ∃ t rest a, st.expiry = t :: rest ∧ st.index.lookup t = some a ∧
        now < a.orig_expires)

/-- The `orig_expires` values reachable from the two expiry lists, in list
order. -/
def combinedOrigs (st : Associations) : List ℚ :=
  (st.expiry ++ st.new_expiry).filterMap
    (fun t => (st.index.lookup t).map Association.orig_expires)

/-- The earliest `orig_expires` among the combined expiry lists. -/
def earliestOrig (st : Associations) : Option ℚ :=
  match combinedOrigs st with
  | [] => none
  | x :: xs => some (xs.foldl min x)

end Shodohflo

/-! ## C1: `nets.py` — the address/scope database -/

/-- `Scope.__init__(powers, scope, mode, fqdn)`; the Powers object is
abstracted to a numeric identity (`find` returns it opaquely). -/
structure Scope where
  powers : Nat
  scope : Nat
  mode : String
  fqdn : String
deriving DecidableEq, Repr

/-- A single flattened configuration entry: one element of a
`net_spec['nets']` list together with its `net_spec['powers']`.  `addr` is
`int(subnet['net'].network_address)` and `prefixLen` is
`subnet['net'].prefixlen` (`ipaddress` guarantees `addr` has its host bits
zero). -/
structure SubnetSpec where
  addr : Nat
  prefixLen : Nat
  mode : String
  fqdn : String
  powers : Nat
deriving DecidableEq, Repr

/-- The `Scope` built by `Node.new` for a configuration entry. -/
def scopeOf (e : SubnetSpec) : Scope :=
  ⟨e.powers, e.prefixLen, e.mode, e.fqdn⟩

/-- `Node`: an address together with its scopes, kept sorted by descending
prefix length. -/
structure Node where
  address : Nat
  scopes : List Scope
deriving DecidableEq, Repr

/-- Stable insertion into a list sorted descending by `key`: the new
element goes before the first element whose key is not larger (Python's
stable `sorted(..., reverse=True)` keeps earlier elements first on
ties). -/
def insertDesc (key : Scope → Nat) (x : Scope) : List Scope → List Scope
  | [] => [x]
  | y :: ys => if key x < key y then y :: insertDesc key x ys else x :: y :: ys

/-- Stable descending sort by `key` (Python
`sorted(..., key=..., reverse=True)`). -/
def sortDesc (key : Scope → Nat) : List Scope → List Scope
  | [] => []
  | x :: xs => insertDesc key x (sortDesc key xs)

/-- The in-place replacement loop of `Node.add_scope`: overwrite the first
scope with the same prefix length. -/
def replaceScope : List Scope → Scope → List Scope
  | [], _ => []
  | t :: ts, s => if t.scope = s.scope then s :: ts else t :: replaceScope ts s

/-- `Node.add_scope`: replace in place when a scope with the same prefix
length exists, otherwise append and re-sort descending. -/
def Node.add_scope (node : Node) (s : Scope) : Node :=
  if node.scopes.any (fun t => t.scope == s.scope) then
    { node with scopes := replaceScope node.scopes s }
  else
    { node with scopes := sortDesc Scope.scope (node.scopes ++ [s]) }

/-- `Node.get_scope(bits)`: the first scope (descending order, so the
longest) whose prefix length is at most `bits`. -/
def Node.get_scope (node : Node) (bits : Nat) : Option Scope :=
  node.scopes.find? (fun s => s.scope ≤ bits)

/-- `Node.new`: a node holding the entry's single scope. -/
def Node.new (e : SubnetSpec) : Node :=
  ⟨e.addr, sortDesc Scope.scope [scopeOf e]⟩

/-- Replace the node stored under a key of the `nets` dict in place. -/
def nodeSet : List (Nat × Node) → Nat → Node → List (Nat × Node)
  | [], a, v => [(a, v)]
  | (k, w) :: rest, a, v =>
      if k = a then (k, v) :: rest else (k, w) :: nodeSet rest a v

/-- One iteration of the `Nets.__init__` loop body. -/
def netsAdd (nets : List (Nat × Node)) (e : SubnetSpec) : List (Nat × Node) :=
  match nets.lookup e.addr with
  | some node => nodeSet nets e.addr (node.add_scope ((Node.new e).scopes.headD (scopeOf e)))
  | none => nets ++ [(e.addr, Node.new e)]

/-- `Nets.__init__` over the flattened configuration (insertion-ordered
dict as an association list). -/
def netsBuild (cfg : List SubnetSpec) : List (Nat × Node) :=
  cfg.foldl netsAdd []

/-- `Nets.find(address)`: mask the address from the least-significant end,
one bit at a time (`i = 0 .. 31`), and return the first scope some masked
address' node yields for `32 - i` bits. -/
def Nets.find (nets : List (Nat × Node)) (address : Nat) : Option Scope :=
  (List.range 32).findSome? (fun i =>
    let all_bits := 2 ^ 32 - 1
    let effective := Nat.land address (Nat.xor all_bits (2 ^ i - 1))
    match nets.lookup effective with
    | none => none
    | some node => node.get_scope (32 - i))

/-- Keep the later entry whenever its prefix length is at least the
current one (so the longest prefix wins and ties go to the last
insertion). -/
def lastMax : Option Scope → List SubnetSpec → Option Scope
  | acc, [] => acc
  | none, e :: es => lastMax (some (scopeOf e)) es
  | some s, e :: es =>
      lastMax (if s.scope ≤ e.prefixLen then some (scopeOf e) else some s) es

/-- Modelled from the spec: entry `e`'s network contains address `A` when
the top `prefixLen` bits of `A` agree with the network address. -/
def containsAddr (e : SubnetSpec) (A : Nat) : Bool :=
  A / 2 ^ (32 - e.prefixLen) == e.addr / 2 ^ (32 - e.prefixLen)

/-- Modelled from the spec: the Scope with the longest prefix whose
network contains `A` among all configured entries, ties at an equal
(address, prefix) slot resolved to the last inserted. -/
def specFind (cfg : List SubnetSpec) (A : Nat) : Option Scope :=
  lastMax none (cfg.filter (fun e => containsAddr e A))

/-- An address with its lowest `i` bits cleared. -/
def chop (A i : Nat) : Nat := A / 2 ^ i * 2 ^ i

/-- The slot-local selection `find` effectively performs at iteration
`i`: the configured entries sitting exactly at the masked address with a
prefix of at most `32 - i` bits, resolved like `lastMax`. -/
def bestSlot (cfg : List SubnetSpec) (a bits : Nat) : Option Scope :=
  lastMax none (cfg.filter (fun e => e.addr == a && e.prefixLen ≤ bits))

/-- A well-formed configuration: every entry is a real subnet (prefix
between 1 and 32) whose network address is masked to its prefix and fits
in 32 bits. -/
def NetsWF (cfg : List SubnetSpec) : Prop :=
  ∀ e ∈ cfg, 1 ≤ e.prefixLen ∧ e.prefixLen ≤ 32 ∧ e.addr < 2 ^ 32 ∧
    e.addr % 2 ^ (32 - e.prefixLen) = 0

/-- A scope list strictly descending by prefix length. -/
def SD (l : List Scope) : Prop :=
  (l.map Scope.scope).Pairwise (fun a b => b < a)

/-- The node invariant: scopes strictly descending by prefix length. -/
def NodeWF (node : Node) : Prop := SD node.scopes

/-- How one more configuration entry at a slot refines the scope a slot
query returns: a new scope wins when it fits under `bits` and its prefix
is at least the incumbent's. -/
def stepBest (s₀ : Scope) (bits : Nat) : Option Scope → Option Scope
  | none => if s₀.scope ≤ bits then some s₀ else none
  | some s => if s₀.scope ≤ bits ∧ s.scope ≤ s₀.scope then some s₀ else some s

/-- The scope the built structure yields for `bits` bits at address `a`
(`find`'s per-iteration body). -/
def getScopeAt (nets : List (Nat × Node)) (a bits : Nat) : Option Scope :=
  (nets.lookup a).bind (fun node => node.get_scope bits)

/-- The `Nets.__init__` fold invariant: the structure built from the
processed entries answers every `(address, bits)` query exactly like the
slot-local selection `bestSlot` over those entries. -/
def BuildInv (pre : List SubnetSpec) (nets : List (Nat × Node)) : Prop :=
  (∀ a bits, getScopeAt nets a bits = bestSlot pre a bits) ∧
  (∀ a node, nets.lookup a = some node → NodeWF node) ∧
  (∀ a, (nets.lookup a).isSome ↔ ∃ f ∈ pre, f.addr = a)

end RearView

namespace RearView

/-! Basic facts about the pipeline stages. -/

theorem stepFallback_openedUpstream (q : HReq) (b : Bool) :
    (stepFallback q b).openedUpstream = b := by
  unfold stepFallback; split <;> rfl

theorem stepLast_openedUpstream (q : HReq) (b : Bool) :
    (stepLast q b).openedUpstream = b := by
  unfold stepLast
  split
  · cases h : execPowers q.scopePowers with
    | error e => rfl
    | ok o => cases o with
      | none => exact stepFallback_openedUpstream q b
      | some s => rfl
  · exact stepFallback_openedUpstream q b

theorem execPowers_ne_error_of_no_raise (l : List PQ) (h : PQ.raise ∉ l) :
    ∀ e, execPowers l ≠ .error e := by
  induction l with
  | nil => intro e; simp [execPowers]
  | cons hd tl ih =>
      intro e
      cases hd with
      | raise => exact absurd (List.mem_cons_self _ _) h
      | ok s =>
          simp only [execPowers]
          split
          · exact ih (fun hm => h (List.mem_cons_of_mem _ hm)) e
          · simp

theorem stepFallback_sent_isSome (q : HReq) (b : Bool) :
    (stepFallback q b).sent.isSome = true := by
  unfold stepFallback; split <;> rfl

theorem stepFallback_not_raised (q : HReq) (b : Bool) :
    (stepFallback q b).raised = false := by
  unfold stepFallback; split <;> rfl

theorem stepLast_ok_of_no_raise (q : HReq) (b : Bool)
    (h : PQ.raise ∉ q.scopePowers) :
    (stepLast q b).sent.isSome = true ∧ (stepLast q b).raised = false := by
  unfold stepLast
  split
  · cases hE : execPowers q.scopePowers with
    | error e => exact absurd hE (execPowers_ne_error_of_no_raise _ h e)
    | ok o => cases o with
      | none => exact ⟨stepFallback_sent_isSome q b, stepFallback_not_raised q b⟩
      | some s => exact ⟨rfl, rfl⟩
  · exact ⟨stepFallback_sent_isSome q b, stepFallback_not_raised q b⟩

theorem stepUpstream_ok_of_no_raise (q : HReq) (u : Up)
    (h : PQ.raise ∉ q.scopePowers) (hu : u ≠ .fail) :
    (stepUpstream q u).sent.isSome = true ∧ (stepUpstream q u).raised = false := by
  cases u with
  | fail => exact absurd rfl hu
  | ok rc =>
      unfold stepUpstream
      dsimp only
      split
      · split
        · exact ⟨rfl, rfl⟩
        · exact stepLast_ok_of_no_raise q true h
      · exact stepLast_ok_of_no_raise q false h

/-- **C2, claim as stated is false.**  A PTR query whose address resolves to
a Scope with mode `always` but with an empty powers list makes
`Powers.__call__` return false, so `handle_request` takes the upstream
branch (`not powers() or powers.mode != 'always'` is true) and opens a
connection to the upstream resolver. -/
theorem handleRequest_always_empty_powers_opens_upstream :
    (handleRequest ⟨true, true, "always", "", []⟩ (.ok 0)).openedUpstream = true := by
  decide

/-- **C2 (amended).**  For every PTR query whose decoded address resolves to
a Scope with mode `always` *and a non-empty powers list*, `handle_request`
never opens a connection to the upstream resolver, whatever the powers
return (including raises) and whatever the upstream would have answered. -/
theorem handleRequest_always_never_opens_upstream (q : HReq) (u : Up)
    (hp : q.isPTR = true) (hs : q.scopeFound = true)
    (hne : q.scopePowers ≠ []) (hm : q.scopeMode = "always") :
    (handleRequest q u).openedUpstream = false := by
  obtain ⟨ptr, sf, mode, fq, pws⟩ := q
  simp only at hp hs hm hne
  subst hp; subst hs; subst hm
  have hb : powersB ⟨true, true, "always", fq, pws⟩ = true := by
    cases pws with
    | nil => exact absurd rfl hne
    | cons a l => rfl
  have hcond : (powersB ⟨true, true, "always", fq, pws⟩ &&
      (("always" : String) == "first" || ("always" : String) == "always")) = true := by
    rw [hb]; decide
  unfold handleRequest
  rw [hcond]
  simp only [if_true]
  cases hE : execPowers pws with
  | error e => rfl
  | ok o =>
      cases o with
      | some s => rfl
      | none =>
          unfold stepUpstream
          have hcond2 : (!powersB ⟨true, true, "always", fq, pws⟩ ||
              (("always" : String) != "always")) = false := by
            rw [hb]; decide
          rw [hcond2]
          simp only [Bool.false_eq_true, if_false]
          exact stepLast_openedUpstream _ false

/-- Witness for the amended C2 theorem at a concrete input. -/
theorem handleRequest_always_never_opens_upstream_witness :
    (handleRequest ⟨true, true, "always", "lab", [.ok "host"]⟩ (.ok 3)).openedUpstream
      = false :=
  handleRequest_always_never_opens_upstream _ (.ok 3) rfl rfl (by decide) rfl

/-- `Powers.exec` has no exception handling: a power whose `query` raises
is *not* treated as an empty result; the exception propagates out of
`handle_request`, the task dies, and no response datagram is sent — here
the second power would have answered `host.` but is never consulted. -/
theorem handleRequest_raise_drops_reply :
    (handleRequest ⟨true, true, "first", "", [.raise, .ok "host"]⟩ (.ok 0)).sent
      = none ∧
    (handleRequest ⟨true, true, "first", "", [.raise, .ok "host"]⟩ (.ok 0)).raised
      = true := by
  decide

/-- The staged pipeline after a successful `Powers.__init__`: provided no
consulted power raises and the upstream exchange (when reached) succeeds,
it produces a response (synthesized NOERROR data, the upstream's own RCODE
bytes, or a synthesized NXDOMAIN) and no exception escapes. -/
theorem handleRequest_sends_of_no_raise (q : HReq) (u : Up)
    (h : PQ.raise ∉ q.scopePowers) (hu : u ≠ .fail) :
    (handleRequest q u).sent.isSome = true ∧ (handleRequest q u).raised = false := by
  unfold handleRequest
  split
  · cases hE : execPowers q.scopePowers with
    | error e => exact absurd hE (execPowers_ne_error_of_no_raise _ h e)
    | ok o => cases o with
      | none => exact stepUpstream_ok_of_no_raise q u h hu
      | some s => exact ⟨rfl, rfl⟩
  · exact stepUpstream_ok_of_no_raise q u h hu

/-- The staged-pipeline lemma at a concrete input. -/
theorem handleRequest_sends_of_no_raise_witness :
    (handleRequest ⟨true, true, "last", "office", [.ok "", .ok "host"]⟩
        (.ok 3)).sent.isSome = true ∧
    (handleRequest ⟨true, true, "last", "office", [.ok "", .ok "host"]⟩
        (.ok 3)).raised = false :=
  handleRequest_sends_of_no_raise _ (.ok 3) (by decide) (by decide)

/-- **C3, claim as stated is false.**  A parseable PTR query whose qname is
not an encoded address — e.g. `example.com.`, which `Powers.__init__`
decodes to `.com.example` — makes `ipaddress.ip_address` raise `ValueError`
at the top of `handle_request`; the task dies and nothing is sent, even
though no power raises (the configured power would answer `host`), the
upstream would answer RCODE 0, and every synthesized text would parse.  The
reply is dropped on a parseable input, which the claim forbids. -/
theorem handleFull_decode_raise_drops_reply :
    (handleFull (fun _ => false) ⟨true, true, "always", "", [.ok "host"]⟩
        false (.ok 0)).sent = none ∧
    (handleFull (fun _ => false) ⟨true, true, "always", "", [.ok "host"]⟩
        false (.ok 0)).raised = true ∧
    (handleFull (fun _ => false) ⟨true, true, "always", "", [.ok "host"]⟩
        false (.ok 0)).openedUpstream = false := by
  decide

/-- **C3 (amended).**  For every parseable request — provided that, when
the question is a PTR, `ipaddress.ip_address` accepts the decoded qname;
that no consulted power raises; that the upstream exchange (when reached)
succeeds; and that `dns.rrset.from_text_list` accepts the synthesized
answer texts — `handle_request` sends back a DNS response (synthesized
NOERROR data, the upstream's own RCODE bytes, or a synthesized NXDOMAIN)
and no exception escapes.  None of those raise paths is caught: a
non-address PTR qname, a raising power, a failed upstream exchange or a
rejected answer text each kill the task and drop the reply. -/
theorem handleFull_sends_of_no_raise (synth : String → Bool) (q : HReq)
    (dec : Bool) (u : Up) (hdec : q.isPTR = true → dec = true)
    (h : PQ.raise ∉ q.scopePowers) (hu : u ≠ .fail)
    (hsynth : ∀ s, synth s = false) :
    (handleFull synth q dec u).sent.isSome = true ∧
    (handleFull synth q dec u).raised = false := by
  have hmain := handleRequest_sends_of_no_raise q u h hu
  have hg : (q.isPTR && !dec) = false := by
    cases hp : q.isPTR with
    | false => rfl
    | true => rw [hdec hp]; rfl
  have hss : synthSent synth (handleRequest q u).sent = false := by
    cases hs : (handleRequest q u).sent with
    | none => rfl
    | some sv =>
        cases sv with
        | powerAnswer s => exact hsynth s
        | upstreamBytes rc => rfl
        | fallbackAnswer s => exact hsynth s
        | nxdomain => rfl
  show ((if (q.isPTR && !dec) = true then (⟨false, none, true⟩ : HTrace)
      else if synthSent synth (handleRequest q u).sent = true
        then ⟨(handleRequest q u).openedUpstream, none, true⟩
        else handleRequest q u).sent.isSome = true ∧
    (if (q.isPTR && !dec) = true then (⟨false, none, true⟩ : HTrace)
      else if synthSent synth (handleRequest q u).sent = true
        then ⟨(handleRequest q u).openedUpstream, none, true⟩
        else handleRequest q u).raised = false)
  rw [hg, hss]
  simp only [Bool.false_eq_true, if_false]
  exact hmain

/-- Witness for the amended C3 theorem at a concrete input. -/
theorem handleFull_sends_of_no_raise_witness :
    ((true : Bool) = true → (true : Bool) = true) ∧
    PQ.raise ∉ [PQ.ok "", PQ.ok "host"] ∧
    (Up.ok 3) ≠ Up.fail ∧
    (∀ s : String, (fun _ : String => false) s = false) ∧
    (handleFull (fun _ => false) ⟨true, true, "last", "office",
        [.ok "", .ok "host"]⟩ true (.ok 3)).sent.isSome = true ∧
    (handleFull (fun _ => false) ⟨true, true, "last", "office",
        [.ok "", .ok "host"]⟩ true (.ok 3)).raised = false :=
  ⟨fun h => h, by decide, by decide, fun _ => rfl,
    (handleFull_sends_of_no_raise (fun _ => false) _ true (.ok 3)
      (fun h => h) (by decide) (by decide) (fun _ => rfl)).1,
    (handleFull_sends_of_no_raise (fun _ => false) _ true (.ok 3)
      (fun h => h) (by decide) (by decide) (fun _ => rfl)).2⟩

theorem digitChar_isDigit (n : Nat) : (digitChar n).isDigit = true := by
  rcases n with _|_|_|_|_|_|_|_|_|n <;> rfl

theorem natChars_isDigit (n : Nat) : ∀ c ∈ natChars n, c.isDigit = true := by
  induction n using Nat.strong_induction_on with
  | _ n ih =>
      rw [natChars]
      split
      · intro c hc
        rw [List.mem_singleton] at hc
        exact hc ▸ digitChar_isDigit n
      · intro c hc
        rw [List.mem_append, List.mem_singleton] at hc
        rcases hc with hc | hc
        · exact ih (n / 10) (Nat.div_lt_self (by omega) (by omega)) c hc
        · exact hc ▸ digitChar_isDigit (n % 10)

theorem isDigit_ne_dot {c : Char} (h : c.isDigit = true) : c ≠ '.' := by
  intro he; subst he; exact absurd h (by decide)

theorem isDigit_ne_i {c : Char} (h : c.isDigit = true) : c ≠ 'i' := by
  intro he; subst he; exact absurd h (by decide)

theorem dot_not_mem_natChars (n : Nat) : '.' ∉ natChars n := by
  intro h
  exact isDigit_ne_dot (natChars_isDigit n '.' h) rfl

theorem pyReplace_strip_suffix (P : List Char)
    (hP : ∀ c ∈ P, dotOrDigit c) :
    pyReplace '.' inAddr [] (P ++ '.' :: inAddr) = P := by
  induction P with
  | nil =>
      rw [List.nil_append, pyReplace]
      have hpre : ('.' :: inAddr).isPrefixOf ('.' :: inAddr) = true :=
        List.isPrefixOf_iff_prefix.2 (List.prefix_refl _)
      rw [if_pos hpre, List.drop_length, pyReplace, List.nil_append]
  | cons c P' ih =>
      have hc : dotOrDigit c := hP c (List.mem_cons_self _ _)
      have hnotpre :
          ('.' :: inAddr).isPrefixOf (c :: (P' ++ '.' :: inAddr)) = false := by
        rcases hc with hc | hc
        · subst hc
          show ((('.' : Char) == '.') && inAddr.isPrefixOf (P' ++ '.' :: inAddr))
              = false
          cases P' with
          | nil =>
              simp only [List.nil_append]
              decide
          | cons d P'' =>
              have hd : dotOrDigit d :=
                hP d (List.mem_cons_of_mem _ (List.mem_cons_self _ _))
              have hdne : ('i' == d) = false := by
                rcases hd with hd | hd
                · subst hd; decide
                · exact beq_eq_false_iff_ne.2 (Ne.symm (isDigit_ne_i hd))
              show (true && (inAddr.isPrefixOf (d :: (P'' ++ '.' :: inAddr))))
                  = false
              rw [Bool.true_and]
              show (('i' == d) && _) = false
              rw [hdne, Bool.false_and]
        · have : (('.' : Char) == c) = false :=
            beq_eq_false_iff_ne.2 (Ne.symm (isDigit_ne_dot hc))
          show ((('.' : Char) == c) && _) = false
          rw [this, Bool.false_and]
      rw [List.cons_append, pyReplace, hnotpre]
      simp only [Bool.false_eq_true, if_false, List.cons_inj_right]
      exact ih (fun x hx => hP x (List.mem_cons_of_mem _ hx))

theorem pySplit_ne_nil (sep : Char) (s : List Char) : pySplit sep s ≠ [] := by
  cases s with
  | nil => simp [pySplit]
  | cons c rest =>
      rw [pySplit]
      split
      · simp
      · split
        · simp
        · simp

theorem pySplit_no_sep (sep : Char) (A : List Char) (h : sep ∉ A) :
    pySplit sep A = [A] := by
  induction A with
  | nil => rfl
  | cons c A' ih =>
      have hcs : ¬ c = sep := fun he => h (by rw [he]; exact List.mem_cons_self _ _)
      rw [pySplit, if_neg hcs, ih (fun hm => h (List.mem_cons_of_mem _ hm))]

theorem pySplit_append (sep : Char) (A B : List Char) (h : sep ∉ A) :
    pySplit sep (A ++ sep :: B) = A :: pySplit sep B := by
  induction A with
  | nil => rw [List.nil_append, pySplit, if_pos rfl]
  | cons c A' ih =>
      have hcs : ¬ c = sep := fun he => h (by rw [he]; exact List.mem_cons_self _ _)
      rw [List.cons_append, pySplit, if_neg hcs,
        ih (fun hm => h (List.mem_cons_of_mem _ hm))]

/-- **C8 (confirmed).**  For every qname of the form `d.c.b.a.in-addr.arpa.`
(octets rendered in canonical decimal), decoding it to the address text
`a.b.c.d` as `Powers.__init__` does and re-encoding that address as a PTR
qname yields the original qname. -/
theorem decode_encode_qname_roundtrip (a b c d : Nat)
    (ha : a ≤ 255) (hb : b ≤ 255) (hc : c ≤ 255) (hd : d ≤ 255) :
    decodeQname (qnameOf a b c d) = addrTextOf a b c d ∧
    encodeQname (decodeQname (qnameOf a b c d)) = qnameOf a b c d := by
  have hsplit : ∀ w x y z : Nat,
      pySplit '.' (natChars w ++ ('.' :: (natChars x ++ ('.' :: (natChars y
          ++ ('.' :: natChars z)))))) =
        [natChars w, natChars x, natChars y, natChars z] := by
    intro w x y z
    rw [pySplit_append '.' _ _ (dot_not_mem_natChars w),
      pySplit_append '.' _ _ (dot_not_mem_natChars x),
      pySplit_append '.' _ _ (dot_not_mem_natChars y),
      pySplit_no_sep '.' _ (dot_not_mem_natChars z)]
  have hdigits : ∀ x ∈ natChars d ++ ('.' :: (natChars c ++ ('.' ::
      (natChars b ++ ('.' :: natChars a))))), dotOrDigit x := by
    intro x hx
    simp only [List.mem_append, List.mem_cons] at hx
    rcases hx with hx | hx | hx
    · exact Or.inr (natChars_isDigit d x hx)
    · exact Or.inl hx
    · rcases hx with hx | hx | hx
      · exact Or.inr (natChars_isDigit c x hx)
      · exact Or.inl hx
      · rcases hx with hx | hx | hx
        · exact Or.inr (natChars_isDigit b x hx)
        · exact Or.inl hx
        · exact Or.inr (natChars_isDigit a x hx)
  have hq : qnameOf a b c d
      = (natChars d ++ ('.' :: (natChars c ++ ('.' :: (natChars b ++
          ('.' :: natChars a)))))) ++ ('.' :: inAddr) := by
    unfold qnameOf
    simp [List.append_assoc]
  have hdec : decodeQname (qnameOf a b c d) = addrTextOf a b c d := by
    unfold decodeQname
    rw [hq, pyReplace_strip_suffix _ hdigits, hsplit d c b a]
    rfl
  refine ⟨hdec, ?_⟩
  rw [hdec]
  unfold encodeQname addrTextOf
  rw [hsplit a b c d, hq]
  rfl

/-- Witness for C8 at the qname `4.3.2.1.in-addr.arpa.`. -/
theorem decode_encode_qname_roundtrip_witness :
    decodeQname (qnameOf 1 2 3 4) = addrTextOf 1 2 3 4 ∧
    encodeQname (decodeQname (qnameOf 1 2 3 4)) = qnameOf 1 2 3 4 :=
  decode_encode_qname_roundtrip 1 2 3 4 (by decide) (by decide) (by decide)
    (by decide)

namespace Shodohflo

/-- **C7, claim as stated is false.**  When the final tie-break stage is
reached (two chains, both surviving the maximum-length filter and the
minimum-TLD-match filter — their `match_len`s are equal), `query` picks the
final name with the fewest *characters*, not the fewest *labels*: here it
returns `aa.bb` (5 characters, 2 labels) even though `cccccc` has fewer
labels (1). -/
theorem query_fewest_labels_counterexample :
    query 8 [("1.2.3.4", ["aa.bb", "cccccc"])] "1.2.3.4" = some "aa.bb" ∧
    matchLen ["1.2.3.4", "aa.bb"] = matchLen ["1.2.3.4", "cccccc"] ∧
    (RearView.pySplit '.' "aa.bb".toList).length = 2 ∧
    (RearView.pySplit '.' "cccccc".toList).length = 1 := by
  decide

theorem resolveChains_pair (addr n1 n2 : String)
    (hml : matchLen [addr, n1] = matchLen [addr, n2])
    (hlen : n1.length < n2.length) :
    resolveChains [[addr, n1], [addr, n2]] = some n1 := by
  have hmin : Nat.min n1.length n2.length = n1.length :=
    Nat.min_eq_left (Nat.le_of_lt hlen)
  have hne : ¬ (n2.length = n1.length) := fun h => absurd h (by omega)
  simp [resolveChains, chainsMaxLen, cand1, chainsMinMatch, cand2, finalKeys,
    lenLast, listMax, listMin, List.range_succ, hml, hlen, List.findIdx?,
    hmin, hne]

theorem followChains_pair (f : Nat) (addr n1 n2 : String)
    (h1 : n1 ≠ addr) (h2 : n2 ≠ addr) :
    followChains [(addr, [n1, n2])] (f + 2) [addr] []
      = some [[addr, n1], [addr, n2]] := by
  have hb1 : (n1 == addr) = false := beq_eq_false_iff_ne.2 h1
  have hb2 : (n2 == addr) = false := beq_eq_false_iff_ne.2 h2
  simp [followChains, goFqdns, List.lookup, hb1, hb2, h1, h2]

theorem pumpRoot_length (k : Nat) : (pumpRoot k).length = k + 1 := by
  simp [pumpRoot]

theorem pumpRoot_inj {i j : Nat} (h : pumpRoot i = pumpRoot j) : i = j := by
  have := congrArg List.length h
  rw [pumpRoot_length, pumpRoot_length] at this
  omega

theorem mem_pumpChains {p : List String} {m : Nat} :
    p ∈ pumpChains m ↔ ∃ j, j < m ∧ p = pumpRoot (j + 1) := by
  simp only [pumpChains, List.mem_map, List.mem_range]
  constructor
  · rintro ⟨j, hj, rfl⟩; exact ⟨j, hj, rfl⟩
  · rintro ⟨j, hj, rfl⟩; exact ⟨j, hj, rfl⟩

theorem pumpRoot_mem_pumpChains {k m : Nat} (h1 : 1 ≤ k) (h2 : k ≤ m) :
    pumpRoot k ∈ pumpChains m := by
  rw [mem_pumpChains]
  exact ⟨k - 1, by omega, by congr 1; omega⟩

theorem pumpRoot_not_mem_pumpChains {m : Nat} :
    pumpRoot (m + 1) ∉ pumpChains m := by
  rw [mem_pumpChains]
  rintro ⟨j, hj, he⟩
  have := pumpRoot_inj he
  omega

theorem pumpChains_snoc (m : Nat) :
    pumpChains m ++ [pumpRoot (m + 1)] = pumpChains (m + 1) := by
  simp [pumpChains, List.range_succ]

theorem pumpRoot_getLastD (k : Nat) (h : 1 ≤ k) :
    (pumpRoot k).getLastD "" = "b" := by
  obtain ⟨j, rfl⟩ : ∃ j, k = j + 1 := ⟨k - 1, by omega⟩
  show (("a" :: List.replicate (j + 1) "b").getLastD "") = "b"
  rw [List.replicate_succ']
  rw [show ("a" :: (List.replicate j "b" ++ ["b"]))
      = (("a" :: List.replicate j "b") ++ ["b"]) from rfl]
  exact List.getLastD_concat _ _ _

theorem b_mem_pumpRoot (k : Nat) (h : 1 ≤ k) : "b" ∈ pumpRoot k := by
  obtain ⟨j, rfl⟩ : ∃ j, k = j + 1 := ⟨k - 1, by omega⟩
  exact List.mem_cons_of_mem _ (List.mem_replicate.2 ⟨by omega, rfl⟩)

theorem pumpRoot_snoc (k : Nat) : pumpRoot k ++ ["b"] = pumpRoot (k + 1) := by
  simp [pumpRoot, List.replicate_succ']

theorem lookup_store₂_pumpRoot (k : Nat) (h : 1 ≤ k) :
    store₂.lookup ((pumpRoot k).getLastD "") = some ["b", "b"] := by
  rw [pumpRoot_getLastD k h]; rfl

/-- One successful pump step: with fresh path `pumpRoot (m+1)` the walker
records it at once. -/
theorem followChains_pump_step (f m : Nat) :
    followChains store₂ (f + 1) (pumpRoot (m + 1)) (pumpChains m)
      = some (pumpChains (m + 1)) := by
  rw [followChains]
  simp only [lookup_store₂_pumpRoot (m + 1) (Nat.le_add_left 1 m)]
  rw [goFqdns,
    if_pos ⟨b_mem_pumpRoot (m + 1) (Nat.le_add_left 1 m),
      pumpRoot_not_mem_pumpChains⟩,
    pumpChains_snoc]

/-- The pumping lemma: on `store₂` the walker exhausts any fuel from any
pumped state with `1 ≤ k ≤ m`. -/
theorem followChains_pump (f : Nat) : ∀ k m, 1 ≤ k → k ≤ m →
    followChains store₂ f (pumpRoot k) (pumpChains m) = none := by
  induction f with
  | zero => intro k m _ _; rfl
  | succ f ih =>
      intro k m hk hkm
      rw [followChains]
      simp only [lookup_store₂_pumpRoot k hk]
      rw [goFqdns, if_neg (fun hc =>
        hc.2 (pumpRoot_mem_pumpChains hk hkm))]
      rw [pumpRoot_snoc]
      rcases Nat.lt_or_ge k m with hlt | hge
      · simp only [ih (k + 1) m (by omega) (by omega)]
      · have hkm' : k = m := by omega
        subst hkm'
        cases f with
        | zero => rfl
        | succ f' =>
            simp only [followChains_pump_step f' k]
            rw [goFqdns, if_neg (fun hc =>
              hc.2 (pumpRoot_mem_pumpChains hk (by omega : k ≤ k + 1)))]
            rw [pumpRoot_snoc]
            simp only [ih (k + 1) (k + 1) (by omega) (by omega)]

/-- On `store₂`, starting from address `a`, every fuel is exhausted. -/
theorem followChains_store₂_none (f : Nat) :
    followChains store₂ f ["a"] [] = none := by
  cases f with
  | zero => rfl
  | succ f =>
      rw [show followChains store₂ (f + 1) ["a"] []
            = goFqdns (followChains store₂ f) ["b", "b"] ["a"] [] from rfl]
      rw [goFqdns, if_neg (by rintro ⟨hmem, -⟩; simp at hmem)]
      cases f with
      | zero => rfl
      | succ f' =>
          simp only [show followChains store₂ (f' + 1) (["a"] ++ ["b"]) []
              = some (pumpChains 1) from followChains_pump_step f' 0]
          rw [goFqdns, if_neg (by rintro ⟨hmem, -⟩; simp at hmem)]
          simp only [show followChains store₂ (f' + 1) (["a"] ++ ["b"])
                (pumpChains 1) = none
              from followChains_pump (f' + 1) 1 1 (Nat.le_refl 1) (Nat.le_refl 1)]

/-- **C10, claim as stated is false.**  On the finite cyclic store
`{a → [b,b], b → [b,b]}` (an `fqdns` list may contain a name twice) the
recursive chain walker does not terminate from address `a` — the
`association in root` loop check is defeated because the current path is
already recorded in `chains`, so the walker keeps extending the path —
and consequently `query` is not total there either. -/
theorem followChains_not_terminating :
    ¬ FollowTerminates store₂ "a" ∧ ¬ QueryTotal store₂ "a" := by
  constructor
  · rintro ⟨f, hf⟩
    rw [followChains_store₂_none f] at hf
    exact absurd hf (by decide)
  · rintro ⟨f, hf⟩
    rw [query, followChains_store₂_none f] at hf
    exact absurd hf (by decide)

theorem lookup_mem {α β : Type} [BEq α] [LawfulBEq α] {l : List (α × β)}
    {k : α} {v : β} (h : l.lookup k = some v) : (k, v) ∈ l := by
  induction l with
  | nil => simp [List.lookup] at h
  | cons p rest ih =>
      obtain ⟨k', v'⟩ := p
      rw [List.lookup] at h
      cases hbeq : k == k' with
      | true =>
          rw [hbeq] at h
          have hk : k = k' := eq_of_beq hbeq
          have hv : v' = v := by
            simpa using h
          subst hk; subst hv
          exact List.mem_cons_self _ _
      | false =>
          rw [hbeq] at h
          exact List.mem_cons_of_mem _ (ih h)

theorem mem_namesOf {store : Store} {k : String} {fqdns : List String}
    {a : String} (hm : (k, fqdns) ∈ store) (ha : a ∈ fqdns) :
    a ∈ namesOf store := by
  rw [namesOf, List.mem_flatten]
  exact ⟨fqdns, List.mem_map.2 ⟨(k, fqdns), hm, rfl⟩, ha⟩

theorem countP_not_mem_snoc_lt (l root : List String) (a : String)
    (hal : a ∈ l) (har : a ∉ root) :
    l.countP (fun x => decide (x ∉ root ++ [a]))
      < l.countP (fun x => decide (x ∉ root)) := by
  obtain ⟨s, t, rfl⟩ := List.append_of_mem hal
  have mono : ∀ u : List String,
      u.countP (fun x => decide (x ∉ root ++ [a]))
        ≤ u.countP (fun x => decide (x ∉ root)) := by
    intro u
    apply List.countP_mono_left
    intro x _ hx
    simp only [decide_eq_true_eq, List.mem_append] at hx ⊢
    exact fun hxr => hx (Or.inl hxr)
  have ha1 : (decide (a ∉ root ++ [a]) : Bool) = false := by simp
  have ha2 : (decide (a ∉ root) : Bool) = true := by simp [har]
  rw [List.countP_append, List.countP_append, List.countP_cons, List.countP_cons,
    ha1, ha2]
  have hs := mono s
  have ht := mono t
  simp only [Bool.false_eq_true, if_false, if_true]
  omega

theorem prefix_snoc_ne {root : List String} {a b : String} {p : List String}
    (hab : a ≠ b) (hpa : (root ++ [a]) <+: p) : ¬ (root ++ [b]) <+: p := by
  intro hpb
  have hlen : (root ++ [a]).length ≤ (root ++ [b]).length := by simp
  have hpre : (root ++ [a]) <+: (root ++ [b]) :=
    List.prefix_of_prefix_length_le hpa hpb hlen
  have heq : root ++ [a] = root ++ [b] :=
    List.IsPrefix.eq_of_length hpre (by simp)
  exact hab (by simpa using heq)

theorem goFqdns_extends
    (next : List String → List (List String) → Option (List (List String)))
    (root : List String)
    (hnext : ∀ a chains out, next (root ++ [a]) chains = some out →
      ∀ p ∈ out, p ∈ chains ∨ (root ++ [a]) <+: p) :
    ∀ fq chains out, goFqdns next fq root chains = some out →
      ∀ p ∈ out, p ∈ chains ∨ root <+: p := by
  intro fq
  induction fq with
  | nil =>
      intro chains out h p hp
      rw [goFqdns] at h
      exact Or.inl ((Option.some_inj.1 h) ▸ hp)
  | cons a rest ih =>
      intro chains out h p hp
      rw [goFqdns] at h
      split at h
      · obtain rfl : chains ++ [root] = out := Option.some_inj.1 h
        rcases List.mem_append.1 hp with hp | hp
        · exact Or.inl hp
        · exact Or.inr ((List.mem_singleton.1 hp) ▸ List.prefix_refl root)
      · cases hE : next (root ++ [a]) chains with
        | none => rw [hE] at h; exact absurd h (by simp)
        | some c =>
            rw [hE] at h
            rcases ih c out h p hp with hpc | hpr
            · rcases hnext a chains c hE p hpc with hpc' | hpr'
              · exact Or.inl hpc'
              · exact Or.inr ((List.prefix_append root [a]).trans hpr')
            · exact Or.inr hpr

theorem followChains_extends (store : Store) : ∀ (f : Nat) root chains out,
    followChains store f root chains = some out →
    ∀ p ∈ out, p ∈ chains ∨ root <+: p := by
  intro f
  induction f with
  | zero => intro root chains out h; exact absurd h (by simp [followChains])
  | succ f ih =>
      intro root chains out h
      rw [followChains] at h
      cases hlk : store.lookup (root.getLastD "") with
      | none =>
          simp only [hlk] at h
          intro p hp
          split at h
          · obtain rfl : chains ++ [root] = out := Option.some_inj.1 h
            rcases List.mem_append.1 hp with hp | hp
            · exact Or.inl hp
            · exact Or.inr ((List.mem_singleton.1 hp) ▸ List.prefix_refl root)
          · exact Or.inl ((Option.some_inj.1 h) ▸ hp)
      | some fqdns =>
          simp only [hlk] at h
          exact goFqdns_extends (followChains store f) root
            (fun a chains' out' hE => ih (root ++ [a]) chains' out' hE)
            fqdns chains out h

theorem goFqdns_isSome (P : String → Prop)
    (next : List String → List (List String) → Option (List (List String)))
    (root : List String)
    (hnextSome : ∀ a chains, P a → a ∉ root →
      (∀ p ∈ chains, ¬ (root ++ [a]) <+: p) →
      (next (root ++ [a]) chains).isSome = true)
    (hnextExt : ∀ a chains out, next (root ++ [a]) chains = some out →
      ∀ p ∈ out, p ∈ chains ∨ (root ++ [a]) <+: p) :
    ∀ fq, fq.Nodup → (∀ a ∈ fq, P a) → ∀ chains, root ∉ chains →
      (∀ a ∈ fq, ∀ p ∈ chains, ¬ (root ++ [a]) <+: p) →
      (goFqdns next fq root chains).isSome = true := by
  intro fq
  induction fq with
  | nil => intro _ _ chains _ _; rw [goFqdns]; rfl
  | cons a rest ih =>
      intro hnodup hfqP chains hrc hpre
      rw [goFqdns]
      by_cases hcond : a ∈ root ∧ root ∉ chains
      · rw [if_pos hcond]; rfl
      · rw [if_neg hcond]
        have hanr : a ∉ root := fun har => hcond ⟨har, hrc⟩
        have hsome := hnextSome a chains (hfqP a (List.mem_cons_self _ _)) hanr
          (hpre a (List.mem_cons_self _ _))
        cases hE : next (root ++ [a]) chains with
        | none => rw [hE] at hsome; exact absurd hsome (by simp)
        | some c =>
            simp only [hE]
            have hanrest : a ∉ rest := (List.nodup_cons.1 hnodup).1
            apply ih (List.Nodup.of_cons hnodup)
              (fun b hb => hfqP b (List.mem_cons_of_mem _ hb)) c
            · intro hroot
              rcases hnextExt a chains c hE root hroot with hrc' | hpr
              · exact hrc hrc'
              · have := hpr.length_le
                simp at this
            · intro b hb p hp
              rcases hnextExt a chains c hE p hp with hpc | hpr
              · exact hpre b (List.mem_cons_of_mem _ hb) p hpc
              · exact prefix_snoc_ne (fun hab => hanrest (by rw [hab]; exact hb)) hpr

theorem followChains_isSome_of_nodup (store : Store)
    (hnd : ∀ p ∈ store, p.2.Nodup) : ∀ (f : Nat) (root : List String) chains,
    (namesOf store).countP (fun x => decide (x ∉ root)) < f →
    root.Nodup → (∀ p ∈ chains, ¬ root <+: p) →
    (followChains store f root chains).isSome = true := by
  intro f
  induction f with
  | zero => intro root chains h _ _; omega
  | succ f ih =>
      intro root chains hmeas hnodup hchains
      rw [followChains]
      cases hlk : store.lookup (root.getLastD "") with
      | none => rfl
      | some fqdns =>
          simp only [hlk]
          have hmem : (root.getLastD "", fqdns) ∈ store := lookup_mem hlk
          apply goFqdns_isSome (fun a => a ∈ namesOf store)
            (followChains store f) root
          · intro a chains' haP hanr hpre'
            apply ih (root ++ [a]) chains' ?_ ?_ hpre'
            · have hdec := countP_not_mem_snoc_lt (namesOf store) root a haP hanr
              omega
            · exact List.Nodup.append hnodup (List.nodup_singleton a)
                (List.disjoint_singleton.2 hanr)
          · exact fun a chains' out' hE =>
              followChains_extends store f (root ++ [a]) chains' out' hE
          · exact hnd _ hmem
          · exact fun a ha => mem_namesOf hmem ha
          · exact fun hroot => hchains root hroot (List.prefix_refl root)
          · exact fun a _ p hp hpre =>
              hchains p hp ((List.prefix_append root [a]).trans hpre)

/-! `query` completes (no exception path) whenever the walker terminates:
the resulting chains are all non-empty, and when there is more than one
chain at least one has length ≥ 2, which rules out the `NameError` /
`IndexError` paths of the ladder. -/

theorem getD_mem_of_lt {α : Type} (l : List α) (i : Nat) (d : α)
    (h : i < l.length) : l.getD i d ∈ l := by
  rw [List.getD_eq_getElem?_getD, List.getElem?_eq_getElem h]
  exact List.getElem_mem h

theorem getD_eq_of_lt {α : Type} (l : List α) (i : Nat) (d : α)
    (h : i < l.length) : l.getD i d = l[i] := by
  rw [List.getD_eq_getElem?_getD, List.getElem?_eq_getElem h]
  rfl

theorem foldl_max_mem (l : List Nat) (acc : Nat) :
    l.foldl Nat.max acc = acc ∨ l.foldl Nat.max acc ∈ l := by
  induction l generalizing acc with
  | nil => exact Or.inl rfl
  | cons x xs ih =>
      rcases ih (Nat.max acc x) with h | h
      · rcases Nat.le_total acc x with hax | hxa
        · right
          have hmx : Nat.max acc x = x := Nat.max_eq_right hax
          rw [List.foldl_cons, h, hmx]
          exact List.mem_cons_self _ _
        · left
          have hmx : Nat.max acc x = acc := Nat.max_eq_left hxa
          rw [List.foldl_cons, h, hmx]
      · right
        exact List.mem_cons_of_mem _ h

theorem acc_le_foldl_max (l : List Nat) (acc : Nat) :
    acc ≤ l.foldl Nat.max acc := by
  induction l generalizing acc with
  | nil => exact Nat.le_refl _
  | cons x xs ih =>
      exact Nat.le_trans (Nat.le_max_left acc x) (ih (Nat.max acc x))

theorem le_foldl_max (l : List Nat) : ∀ (acc x : Nat), x ∈ l →
    x ≤ l.foldl Nat.max acc := by
  induction l with
  | nil => intro acc x hx; cases hx
  | cons y ys ih =>
      intro acc x hx
      rw [List.foldl_cons]
      rcases List.mem_cons.1 hx with rfl | hx
      · exact Nat.le_trans (Nat.le_max_right acc x) (acc_le_foldl_max ys _)
      · exact ih _ x hx

theorem foldl_min_mem (l : List Nat) (acc : Nat) :
    l.foldl Nat.min acc = acc ∨ l.foldl Nat.min acc ∈ l := by
  induction l generalizing acc with
  | nil => exact Or.inl rfl
  | cons x xs ih =>
      rcases ih (Nat.min acc x) with h | h
      · rcases Nat.le_total acc x with hax | hxa
        · left
          have hmx : Nat.min acc x = acc := Nat.min_eq_left hax
          rw [List.foldl_cons, h, hmx]
        · right
          have hmx : Nat.min acc x = x := Nat.min_eq_right hxa
          rw [List.foldl_cons, h, hmx]
          exact List.mem_cons_self _ _
      · right
        exact List.mem_cons_of_mem _ h

theorem listMin_mem (l : List Nat) (h : l ≠ []) : listMin l ∈ l := by
  cases l with
  | nil => exact absurd rfl h
  | cons x xs =>
      rw [listMin]
      show List.foldl Nat.min x (x :: xs) ∈ x :: xs
      have hmx : Nat.min x x = x := Nat.min_self x
      rw [List.foldl_cons, hmx]
      rcases foldl_min_mem xs x with h | h
      · rw [h]; exact List.mem_cons_self _ _
      · exact List.mem_cons_of_mem _ h

theorem foldl_min_le_acc (l : List Nat) : ∀ acc : Nat,
    l.foldl Nat.min acc ≤ acc := by
  induction l with
  | nil => intro acc; exact le_rfl
  | cons x xs ih =>
      intro acc
      exact le_trans (ih (Nat.min acc x)) (Nat.min_le_left _ _)

theorem foldl_min_le_mem (l : List Nat) : ∀ (acc x : Nat), x ∈ l →
    l.foldl Nat.min acc ≤ x := by
  induction l with
  | nil =>
      intro _ x hx
      simp at hx
  | cons y ys ih =>
      intro acc x hx
      rcases List.mem_cons.1 hx with rfl | hx'
      · exact le_trans (foldl_min_le_acc ys _) (Nat.min_le_right _ _)
      · exact ih _ x hx'

theorem listMin_le (l : List Nat) : ∀ x ∈ l, listMin l ≤ x := by
  intro x hx
  cases l with
  | nil => simp at hx
  | cons y ys =>
      rcases List.mem_cons.1 hx with rfl | hx'
      · show (x :: ys).foldl Nat.min ((x :: ys).headD 0) ≤ x
        rw [List.foldl_cons]
        have hmm : Nat.min ((x :: ys).headD 0) x = x := Nat.min_self x
        rw [hmm]
        exact foldl_min_le_acc ys x
      · show (y :: ys).foldl Nat.min ((y :: ys).headD 0) ≤ x
        rw [List.foldl_cons]
        exact foldl_min_le_mem ys _ x hx'

theorem getD_map_of_lt {α β : Type} (g : α → β) (l : List α) (i : Nat)
    (d : α) (db : β) (h : i < l.length) :
    (l.map g).getD i db = g (l.getD i d) := by
  rw [getD_eq_of_lt _ _ _ (by rw [List.length_map]; exact h),
    getD_eq_of_lt _ _ _ h, List.getElem_map]

/-- `findIdx?` returns the first index whose entry equals `v`. -/
theorem findIdx?_first : ∀ (l : List Nat) (v i : Nat),
    l.findIdx? (fun k => k = v) = some i →
    i < l.length ∧ l.getD i 0 = v ∧ ∀ j, j < i → l.getD j 0 ≠ v := by
  intro l
  induction l with
  | nil =>
      intro v i h
      rw [List.findIdx?_nil] at h
      cases h
  | cons x xs ih =>
      intro v i h
      rw [List.findIdx?_cons] at h
      by_cases hx : x = v
      · rw [if_pos (decide_eq_true hx)] at h
        obtain rfl : (0 : Nat) = i := Option.some.inj h
        refine ⟨by simp, by simpa using hx, ?_⟩
        intro j hj
        omega
      · rw [if_neg (by simpa using hx), List.findIdx?_succ] at h
        obtain ⟨i', hfi, rfl⟩ := Option.map_eq_some'.1 h
        obtain ⟨h1, h2, h3⟩ := ih v i' hfi
        refine ⟨by simpa using Nat.succ_lt_succ h1, by simpa using h2, ?_⟩
        intro j hj
        cases j with
        | zero =>
            rw [List.getD_cons_zero]
            exact hx
        | succ j' =>
            rw [List.getD_cons_succ]
            exact h3 j' (by omega)

theorem cand1_lt (chains : List (List String)) :
    ∀ i ∈ cand1 chains, i < chains.length := fun i hi =>
  List.mem_range.1 (List.mem_filter.1 hi).1

theorem cand1_length_le (chains : List (List String)) :
    (cand1 chains).length ≤ chains.length := by
  calc (cand1 chains).length ≤ (List.range chains.length).length :=
        List.length_filter_le _ _
    _ = chains.length := List.length_range _

theorem cand1_ne_nil (chains : List (List String)) (h : chains ≠ []) :
    cand1 chains ≠ [] := by
  have h0 : 0 < chains.length := List.length_pos.2 h
  rcases foldl_max_mem (chains.map List.length) 0 with hm | hm
  · have hmem : (chains.getD 0 []).length ∈ chains.map List.length :=
      List.mem_map.2 ⟨_, getD_mem_of_lt chains 0 [] h0, rfl⟩
    have hle : (chains.getD 0 []).length ≤ chainsMaxLen chains :=
      le_foldl_max _ 0 _ hmem
    have hzero : chainsMaxLen chains = 0 := hm
    have heq : (chains.getD 0 []).length = chainsMaxLen chains := by omega
    have h0c : 0 ∈ cand1 chains := by
      rw [cand1, List.mem_filter]
      exact ⟨List.mem_range.2 h0, by simpa using heq⟩
    exact List.ne_nil_of_mem h0c
  · obtain ⟨p, hp, hplen⟩ := List.mem_map.1 hm
    obtain ⟨i, hilt, rfl⟩ := List.mem_iff_getElem.1 hp
    have hic : i ∈ cand1 chains := by
      rw [cand1, List.mem_filter]
      refine ⟨List.mem_range.2 hilt, ?_⟩
      rw [getD_eq_of_lt chains i [] hilt]
      simpa using hplen
    exact List.ne_nil_of_mem hic

theorem cand2_lt (chains : List (List String)) :
    ∀ i ∈ cand2 chains, i < (cand1 chains).length := fun i hi =>
  List.mem_range.1 (List.mem_filter.1 hi).1

theorem cand2_ne_nil (chains : List (List String)) (h : cand1 chains ≠ []) :
    cand2 chains ≠ [] := by
  have hmapne : (cand1 chains).map (fun ci => matchLen (chains.getD ci [])) ≠ [] :=
    fun hmap => h (List.map_eq_nil_iff.1 hmap)
  have hmm : chainsMinMatch chains
      ∈ (cand1 chains).map (fun ci => matchLen (chains.getD ci [])) :=
    listMin_mem _ hmapne
  obtain ⟨ci, hci, hcieq⟩ := List.mem_map.1 hmm
  obtain ⟨j, hjlt, rfl⟩ := List.mem_iff_getElem.1 hci
  have hjc : j ∈ cand2 chains := by
    rw [cand2, List.mem_filter]
    refine ⟨List.mem_range.2 hjlt, ?_⟩
    rw [getD_eq_of_lt (cand1 chains) j 0 hjlt]
    simpa using hcieq
  exact List.ne_nil_of_mem hjc

theorem cand2_pairwise (chains : List (List String)) :
    (cand2 chains).Pairwise (fun a b => a < b) := by
  rw [cand2]
  exact (List.pairwise_lt_range _).filter _

theorem pairwise_getD_mono {l : List Nat} (h : l.Pairwise (fun a b => a < b))
    {i j : Nat} (hij : i ≤ j) (hj : j < l.length) :
    l.getD i 0 ≤ l.getD j 0 := by
  rcases Nat.eq_or_lt_of_le hij with rfl | hlt
  · exact le_rfl
  · have hi : i < l.length := lt_trans hlt hj
    rw [getD_eq_of_lt _ _ _ hi, getD_eq_of_lt _ _ _ hj]
    exact le_of_lt (List.pairwise_iff_get.1 h ⟨i, hi⟩ ⟨j, hj⟩ hlt)

theorem resolveChains_isSome (chains : List (List String))
    (hne : ∀ p ∈ chains, p ≠ [])
    (h2 : 2 ≤ chains.length → ∃ p ∈ chains, 2 ≤ p.length) :
    (resolveChains chains).isSome = true := by
  have hsel : ∀ i, i < chains.length →
      ((chains.getD i []).getLast?).isSome = true := by
    intro i hi
    exact List.getLast?_isSome.2 (hne _ (getD_mem_of_lt chains i [] hi))
  rw [resolveChains]
  by_cases h0 : chains.length = 0
  · rw [if_pos h0]
    rfl
  · rw [if_neg h0]
    by_cases h1 : chains.length = 1
    · rw [if_pos h1]
      exact hsel 0 (by omega)
    · rw [if_neg h1]
      have hlen2 : 2 ≤ chains.length := by omega
      obtain ⟨p0, hp0, hp0len⟩ := h2 hlen2
      have hM2 : 2 ≤ chainsMaxLen chains :=
        Nat.le_trans hp0len (le_foldl_max _ 0 _ (List.mem_map.2 ⟨p0, hp0, rfl⟩))
      have hc1ne : cand1 chains ≠ [] :=
        cand1_ne_nil chains (by intro hh; rw [hh] at hlen2; simp at hlen2)
      by_cases hc1 : (cand1 chains).length = 1
      · rw [if_pos hc1]
        exact hsel _ (cand1_lt chains _ (getD_mem_of_lt _ 0 0 (by omega)))
      · rw [if_neg hc1, if_pos hM2]
        have hc2ne : cand2 chains ≠ [] := cand2_ne_nil chains hc1ne
        by_cases hc2 : (cand2 chains).length = 1
        · rw [if_pos hc2]
          have hlt0 : 0 < (cand2 chains).length := by omega
          have hin1 : (cand2 chains).getD 0 0 < (cand1 chains).length :=
            cand2_lt chains _ (getD_mem_of_lt _ 0 0 hlt0)
          exact hsel _ (cand1_lt chains _ (getD_mem_of_lt _ _ 0 hin1))
        · rw [if_neg hc2]
          have hkne : finalKeys chains ≠ [] :=
            fun hmap => hc2ne (List.map_eq_nil_iff.1 hmap)
          cases hfind : (finalKeys chains).findIdx?
              (fun k => k = listMin (finalKeys chains)) with
          | none =>
              exact absurd (List.findIdx?_eq_none_iff.1 hfind _
                (listMin_mem _ hkne)) (by simp)
          | some i =>
              obtain ⟨hilt, _, _⟩ := findIdx?_first _ _ _ hfind
              have hilt' : i < (cand2 chains).length := by
                have hfk : finalKeys chains
                    = (cand2 chains).map (lenLast chains) := rfl
                rw [hfk, List.length_map] at hilt
                exact hilt
              show ((chains.getD ((cand2 chains).getD i 0) []).getLast?).isSome
                = true
              apply hsel
              exact Nat.lt_of_lt_of_le
                (cand2_lt chains _ (getD_mem_of_lt (cand2 chains) i 0 hilt'))
                (cand1_length_le chains)

/-- **C7 (amended).**  Whenever chain resolution reaches the final
tie-break stage — at least two chains, more than one surviving the
maximum-length filter, and more than one surviving the minimum-TLD-match
filter — `query` returns the last element of the chain indexed by a
*position* `p` drawn from the second-stage survivor set (the source reuses
those positions directly as chain indices), chosen so that the final name
of `chains[p]` has the fewest *characters* (Python `len` of the string) —
not the fewest labels — with ties going to the earliest position. -/
theorem query_final_stage_fewest_chars (store : Store) (f : Nat)
    (address : String) (chains : List (List String))
    (hfc : followChains store f [address] [] = some chains)
    (hlen : 2 ≤ chains.length)
    (hmax : 2 ≤ chainsMaxLen chains)
    (hc1 : (cand1 chains).length ≠ 1)
    (hc2 : (cand2 chains).length ≠ 1) :
    ∃ p, p ∈ cand2 chains ∧
      query f store address = (chains.getD p []).getLast? ∧
      (∀ q ∈ cand2 chains, lenLast chains p ≤ lenLast chains q) ∧
      (∀ q ∈ cand2 chains, lenLast chains q = lenLast chains p → p ≤ q) := by
  have hc1ne : cand1 chains ≠ [] :=
    cand1_ne_nil chains (by intro hh; rw [hh] at hlen; simp at hlen)
  have hc2ne : cand2 chains ≠ [] := cand2_ne_nil chains hc1ne
  have hkne : finalKeys chains ≠ [] :=
    fun hmap => hc2ne (List.map_eq_nil_iff.1 hmap)
  have hquery : query f store address
      = match (finalKeys chains).findIdx?
          (fun k => k = listMin (finalKeys chains)) with
        | none => none
        | some i => (chains.getD ((cand2 chains).getD i 0) []).getLast? := by
    rw [query, hfc]
    show resolveChains chains = _
    rw [resolveChains, if_neg (by omega : ¬ chains.length = 0),
      if_neg (by omega : ¬ chains.length = 1), if_neg hc1, if_pos hmax,
      if_neg hc2]
  cases hfind : (finalKeys chains).findIdx?
      (fun k => k = listMin (finalKeys chains)) with
  | none =>
      exact absurd (List.findIdx?_eq_none_iff.1 hfind _ (listMin_mem _ hkne))
        (by simp)
  | some i =>
      rw [hfind] at hquery
      have hfk : finalKeys chains = (cand2 chains).map (lenLast chains) := rfl
      obtain ⟨hilt, hkey, hfirst⟩ := findIdx?_first _ _ _ hfind
      rw [hfk, List.length_map] at hilt
      rw [hfk, getD_map_of_lt (lenLast chains) (cand2 chains) i 0 0 hilt]
        at hkey
      refine ⟨(cand2 chains).getD i 0, getD_mem_of_lt _ i 0 hilt,
        hquery, ?_, ?_⟩
      · intro q hq
        rw [hkey]
        exact listMin_le _ _ (List.mem_map.2 ⟨q, hq, rfl⟩)
      · intro q hq heq
        obtain ⟨j, hjlt, rfl⟩ := List.mem_iff_getElem.1 hq
        have hgd : (cand2 chains).getD j 0 = (cand2 chains)[j] :=
          getD_eq_of_lt _ _ _ hjlt
        have hij : i ≤ j := by
          by_contra hji
          push_neg at hji
          have hnej := hfirst j hji
          rw [hfk, getD_map_of_lt (lenLast chains) (cand2 chains) j 0 0 hjlt,
            hgd] at hnej
          exact hnej (heq.trans hkey)
        have hmono := pairwise_getD_mono (cand2_pairwise chains) hij hjlt
        rw [hgd] at hmono
        exact hmono

/-- Witness for the amended C7 theorem: the spec's concrete store
`{"1.2.3.4" → ["x.example.com","example.com","y.example.com"]}` reaches the
final stage with survivor positions `[0, 1, 2]`, and the fewest-characters
choice is position 1 — `query` returns `"example.com"`. -/
theorem query_final_stage_fewest_chars_witness :
    followChains c7Store 8 ["1.2.3.4"] [] = some c7Chains ∧
    2 ≤ c7Chains.length ∧ 2 ≤ chainsMaxLen c7Chains ∧
    (cand1 c7Chains).length ≠ 1 ∧ (cand2 c7Chains).length ≠ 1 ∧
    (∃ p, p ∈ cand2 c7Chains ∧
      query 8 c7Store "1.2.3.4" = (c7Chains.getD p []).getLast? ∧
      (∀ q ∈ cand2 c7Chains, lenLast c7Chains p ≤ lenLast c7Chains q) ∧
      (∀ q ∈ cand2 c7Chains,
        lenLast c7Chains q = lenLast c7Chains p → p ≤ q)) ∧
    query 8 c7Store "1.2.3.4" = some "example.com" :=
  ⟨by decide, by decide, by decide, by decide, by decide,
    query_final_stage_fewest_chars c7Store 8 "1.2.3.4" c7Chains (by decide)
      (by decide) (by decide) (by decide) (by decide),
    by decide⟩

/-- All chains produced from the start state are non-empty extensions of
`[addr]`. -/
theorem goFqdns_large (next : List String → List (List String) →
      Option (List (List String))) (addr : String)
    (hnextExt : ∀ a chains out, next ([addr] ++ [a]) chains = some out →
      ∀ p ∈ out, p ∈ chains ∨ ([addr] ++ [a]) <+: p) :
    ∀ fq chains out, (∀ p ∈ chains, 2 ≤ p.length) →
      goFqdns next fq [addr] chains = some out →
      2 ≤ out.length → ∃ p ∈ out, 2 ≤ p.length := by
  intro fq
  induction fq with
  | nil =>
      intro chains out hinv h hlen
      rw [goFqdns] at h
      have he : chains = out := Option.some_inj.1 h
      subst he
      obtain ⟨p, hp⟩ := List.exists_mem_of_ne_nil chains
        (by intro hnil; rw [hnil] at hlen; simp at hlen)
      exact ⟨p, hp, hinv p hp⟩
  | cons a rest ih =>
      intro chains out hinv h hlen
      rw [goFqdns] at h
      split at h
      · obtain rfl : chains ++ [[addr]] = out := Option.some_inj.1 h
        have hchne : chains ≠ [] := by
          intro hnil
          rw [hnil] at hlen
          simp at hlen
        obtain ⟨p, hp⟩ := List.exists_mem_of_ne_nil chains hchne
        exact ⟨p, List.mem_append.2 (Or.inl hp), hinv p hp⟩
      · cases hE : next ([addr] ++ [a]) chains with
        | none => rw [hE] at h; exact absurd h (by simp)
        | some c =>
            rw [hE] at h
            apply ih c out ?_ h hlen
            intro p hp
            rcases hnextExt a chains c hE p hp with hpc | hpre
            · exact hinv p hpc
            · have := hpre.length_le
              simpa using this

theorem followChains_top_large (store : Store) (f : Nat) (addr : String)
    (out : List (List String))
    (h : followChains store f [addr] [] = some out) (hlen : 2 ≤ out.length) :
    ∃ p ∈ out, 2 ≤ p.length := by
  cases f with
  | zero => exact absurd h (by simp [followChains])
  | succ f =>
      rw [followChains] at h
      cases hlk : store.lookup (([addr] : List String).getLastD "") with
      | none =>
          simp only [hlk] at h
          split at h <;> obtain rfl := Option.some_inj.1 h <;> simp at hlen
      | some fqdns =>
          simp only [hlk] at h
          exact goFqdns_large (followChains store f) addr
            (fun a ch out' hE =>
              followChains_extends store f ([addr] ++ [a]) ch out' hE)
            fqdns [] out (fun p hp => absurd hp (List.not_mem_nil p)) h hlen

/-- **C10 (amended).**  For every finite association store in which no
`fqdns` list contains a duplicate entry, and every starting address, the
recursive chain walker `follow_chains` terminates, and `query` completes
with a value.  (Without the duplicate-free condition this fails —
see the counterexample theorem.) -/
theorem followChains_terminates_of_nodup (store : Store)
    (hnd : ∀ p ∈ store, p.2.Nodup) (address : String) :
    FollowTerminates store address ∧ QueryTotal store address := by
  have hterm : (followChains store ((namesOf store).length + 1)
      [address] []).isSome = true := by
    apply followChains_isSome_of_nodup store hnd
    · have := List.countP_le_length
        (fun x => decide (x ∉ ([address] : List String))) (l := namesOf store)
      omega
    · exact List.nodup_singleton _
    · intro p hp; cases hp
  refine ⟨⟨_, hterm⟩, ?_⟩
  obtain ⟨out, hout⟩ := Option.isSome_iff_exists.1 hterm
  refine ⟨(namesOf store).length + 1, ?_⟩
  rw [query, hout]
  apply resolveChains_isSome
  · intro p hp
    rcases followChains_extends store _ _ _ _ hout p hp with hc | hpre
    · cases hc
    · have := hpre.length_le
      intro hnil
      rw [hnil] at this
      simp at this
  · exact fun hl2 => followChains_top_large store _ address out hout hl2

/-- Witness for the amended C10 theorem at a concrete input. -/
theorem followChains_terminates_of_nodup_witness :
    FollowTerminates [("1.2.3.4", ["x.example.com", "y.example.com"])] "1.2.3.4"
      ∧ QueryTotal [("1.2.3.4", ["x.example.com", "y.example.com"])] "1.2.3.4" :=
  followChains_terminates_of_nodup _ (by decide) "1.2.3.4"

theorem expiryAt_le (now ttl r : ℚ) (httl : 0 ≤ ttl) (hr : r ≤ 1) :
    expiryAt now ttl r ≤ now + ttl * (105/100) := by
  unfold expiryAt
  nlinarith

theorem le_expiryAt (now ttl r : ℚ) (httl : 0 ≤ ttl) (hr : 0 ≤ r) :
    now + ttl * (95/100) ≤ expiryAt now ttl r := by
  unfold expiryAt
  nlinarith

theorem applyOps_inv (ttl : ℚ) (httl : 0 ≤ ttl) :
    ∀ (ops : List AssocOp) (tmin : ℚ) (a : Association),
      AssocInv ttl tmin a → OpsBounded tmin ops →
      ∃ tmin', AssocInv ttl tmin' (applyOps a ops) := by
  intro ops
  induction ops with
  | nil => intro tmin a ha _; exact ⟨tmin, ha⟩
  | cons op rest ih =>
      intro tmin a ha hb
      cases op with
      | upd fq now r =>
          obtain ⟨htn, hr0, hr1, hb'⟩ := hb
          obtain ⟨httla, hexp, horig, hslack⟩ := ha
          apply ih now
          · refine ⟨httla, ?_, ?_, ?_⟩
            · show expiryAt now a.ttl r ≤ now + ttl * (105/100)
              rw [httla]
              exact expiryAt_le now ttl r httl hr1
            · show a.orig_expires ≤ now + ttl * (105/100)
              calc a.orig_expires ≤ tmin + ttl * (105/100) := horig
                _ ≤ now + ttl * (105/100) := by linarith
            · show a.orig_expires - ttl / 10 ≤ expiryAt now a.ttl r
              have h1 : now + ttl * (95/100) ≤ expiryAt now a.ttl r := by
                rw [httla]
                exact le_expiryAt now ttl r httl hr0
              linarith
          · exact hb'
      | mov =>
          obtain ⟨httla, hexp, horig, hslack⟩ := ha
          apply ih tmin
          · exact ⟨httla, hexp, hexp, by simp [Association.moving]; linarith⟩
          · exact hb

/-- **C5, claim as stated is false.**  `update` re-jitters `expires` while
`orig_expires` keeps the older (possibly larger) jitter: created at time 0
with ttl 100 and draw 0.9 (`expires = orig_expires = 104`), then updated at
time 1 with draw 0 (`expires = 96`), the association has
`expires < orig_expires`. -/
theorem assoc_expires_lt_orig_counterexample :
    ((Association.make "t" [] 100 0 (9/10)).update [] 1 0).expires
      < ((Association.make "t" [] 100 0 (9/10)).update [] 1 0).orig_expires := by
  norm_num [Association.make, Association.update, expiryAt]

/-- **C5 (amended).**  Updating an existing association sets `expires` to
the freshly jittered `now + ttl·(0.95 + 0.1·rand)` and leaves
`orig_expires` (and `ttl`) unchanged; after creation and after `moving()`,
`expires = orig_expires`; and along every create/update/move trace with
non-decreasing times and draws in `[0,1]`, `expires ≥ orig_expires − ttl/10`
holds (the full `expires ≥ orig_expires` can fail by up to `0.1·ttl`,
see the counterexample). -/
theorem assoc_lifetime_spec :
    (∀ (a : Association) (fq : List String) (now r : ℚ),
      (a.update fq now r).expires = expiryAt now a.ttl r ∧
      (a.update fq now r).orig_expires = a.orig_expires ∧
      (a.update fq now r).ttl = a.ttl) ∧
    (∀ (tgt : String) (fq : List String) (ttl now r : ℚ),
      (Association.make tgt fq ttl now r).expires
        = (Association.make tgt fq ttl now r).orig_expires) ∧
    (∀ a : Association, a.moving.expires = a.moving.orig_expires) ∧
    (∀ (tgt : String) (fq : List String) (ttl t0 r0 : ℚ) (ops : List AssocOp),
      0 ≤ ttl → 0 ≤ r0 → r0 ≤ 1 → OpsBounded t0 ops →
      (applyOps (Association.make tgt fq ttl t0 r0) ops).orig_expires - ttl / 10
        ≤ (applyOps (Association.make tgt fq ttl t0 r0) ops).expires) := by
  refine ⟨fun a fq now r => ⟨rfl, rfl, rfl⟩, fun tgt fq ttl now r => rfl,
    fun a => rfl, ?_⟩
  intro tgt fq ttl t0 r0 ops httl hr0 hr1 hb
  have hbase : AssocInv ttl t0 (Association.make tgt fq ttl t0 r0) := by
    refine ⟨rfl, ?_, ?_, ?_⟩
    · exact expiryAt_le t0 ttl r0 httl hr1
    · exact expiryAt_le t0 ttl r0 httl hr1
    · show expiryAt t0 ttl r0 - ttl / 10 ≤ expiryAt t0 ttl r0
      linarith
  obtain ⟨tmin', _, _, _, hslack⟩ := applyOps_inv ttl httl ops t0 _ hbase hb
  exact hslack

/-- Witness for the amended C5 theorem at a concrete input. -/
theorem assoc_lifetime_spec_witness :
    (applyOps (Association.make "t" [] 100 0 (9/10))
        [.upd [] 1 0, .mov]).orig_expires - 100 / 10
      ≤ (applyOps (Association.make "t" [] 100 0 (9/10))
        [.upd [] 1 0, .mov]).expires :=
  assoc_lifetime_spec.2.2.2 "t" [] 100 0 (9/10) [.upd [] 1 0, .mov]
    (by norm_num) (by norm_num) (by norm_num)
    (by exact ⟨by norm_num, by norm_num, by norm_num, trivial⟩)

/-! ### C6: what `remove_one` does with the popped head -/

theorem lookup_map_cond (l : List (String × Association)) (n : List String)
    (t : String) (v : Association) (h : l.lookup t = some v) :
    (l.map (fun kv => if kv.1 ∈ n then (kv.1, kv.2.moving) else kv)).lookup t
      = some (if t ∈ n then v.moving else v) := by
  induction l with
  | nil => simp [List.lookup] at h
  | cons p rest ih =>
      obtain ⟨k, w⟩ := p
      rw [List.lookup] at h
      cases hbeq : t == k with
      | true =>
          rw [hbeq] at h
          have hv : w = v := by simpa using h
          have ht : t = k := eq_of_beq hbeq
          subst hv; subst ht
          by_cases hkn : t ∈ n
          · rw [List.map_cons]
            simp only [if_pos hkn]
            rw [List.lookup, hbeq]
          · rw [List.map_cons]
            simp only [if_neg hkn]
            rw [List.lookup, hbeq]
      | false =>
          rw [hbeq] at h
          rw [List.map_cons]
          by_cases hkn : k ∈ n
          · simp only [if_pos hkn]
            rw [List.lookup, hbeq]
            exact ih h
          · simp only [if_neg hkn]
            rw [List.lookup, hbeq]
            exact ih h

/-- **C6, claim as stated is false.**  Reachable state (two `add`s of the
same target): the head `A` of `expiry` has `expires = 96`, `orig_expires =
104`, so `expires > orig_expires` is false and the claim requires `A` to be
deleted from the index; `remove_one` instead appends it to `new_expiry`
(because `updated` is `expires != orig_expires`, not `>`) and leaves
`orig_expires` at 104 — it is not set to `expires` at append time. -/
theorem remove_one_counterexample :
    runOps Associations.empty [.add "A" [] 100 0 (9/10), .add "A" [] 0 1 0]
      = .ok ⟨[("A", ⟨"A", [], 100, 96, 104⟩)], ["A"], []⟩ ∧
    remove_one ⟨[("A", ⟨"A", [], 100, 96, 104⟩)], ["A"], []⟩
      = .ok ⟨[("A", ⟨"A", [], 100, 96, 104⟩)], [], ["A"]⟩ ∧
    ¬ ((96 : ℚ) > 104) ∧ (96 : ℚ) ≠ 104 := by
  refine ⟨?_, ?_, by norm_num, by norm_num⟩
  · norm_num +decide [runOps, runOp, add, purge, purgeLoop, purgeMeasure,
      updatedIn, remove_one, rotate_lists, Associations.empty, expiryAt,
      Association.make, Association.update, Association.updated,
      Association.moving, insertByKey, sortByKey, List.lookup, indexSet,
      indexDel, MAX_ASSOCS]
  · norm_num +decide [remove_one, Association.updated, List.lookup]

/-- **C6 (amended).**  When `remove_one` pops the head `h` of the expiry
list, `h` is appended to `new_expiry` exactly when
`h.expires ≠ h.orig_expires` (the `updated` property), with `orig_expires`
left unchanged at that moment; otherwise `h` is deleted from the index; in
both cases `h` leaves the expiry list.  `orig_expires := expires` happens
only later, in `rotate_lists`, which applies `moving()` to every entry of
`new_expiry`. -/
theorem remove_one_spec (st : Associations) (t : String) (rest : List String)
    (a : Association) (hE : st.expiry = t :: rest)
    (hL : st.index.lookup t = some a) :
    (a.expires ≠ a.orig_expires →
      remove_one st = .ok ⟨st.index, rest, st.new_expiry ++ [t]⟩) ∧
    (a.expires = a.orig_expires →
      remove_one st = .ok ⟨indexDel st.index t, rest, st.new_expiry⟩) ∧
    (∀ u ∈ st.new_expiry, ∀ b, st.index.lookup u = some b →
      (rotate_lists st).index.lookup u = some b.moving ∧
      b.moving.orig_expires = b.expires) := by
  refine ⟨?_, ?_, ?_⟩
  · intro hne
    simp only [remove_one, hE, hL, Association.updated, decide_eq_true_eq]
    rw [if_pos hne]
  · intro heq
    simp only [remove_one, hE, hL, Association.updated, decide_eq_true_eq]
    rw [if_neg (by simp [heq])]
  · intro u hu b hb
    refine ⟨?_, rfl⟩
    show (st.index.map
        (fun kv => if kv.1 ∈ st.new_expiry then (kv.1, kv.2.moving) else kv)).lookup u
      = some b.moving
    rw [lookup_map_cond st.index st.new_expiry u b hb, if_pos hu]

/-- Witness for the amended C6 theorem at a concrete input. -/
theorem remove_one_spec_witness :
    remove_one ⟨[("A", ⟨"A", [], 100, 96, 104⟩)], ["A"], []⟩
      = .ok ⟨[("A", ⟨"A", [], 100, 96, 104⟩)], [], ["A"]⟩ :=
  (remove_one_spec ⟨[("A", ⟨"A", [], 100, 96, 104⟩)], ["A"], []⟩ "A" []
      ⟨"A", [], 100, 96, 104⟩ rfl rfl).1 (by norm_num)

/-! ### C9 / C4: the representation invariant and the purge loop -/

theorem mem_keys_of_lookup {l : List (String × Association)} {t : String}
    {v : Association} (h : l.lookup t = some v) : t ∈ l.map Prod.fst :=
  List.mem_map.2 ⟨(t, v), lookup_mem h, rfl⟩

theorem lookup_isSome_of_mem_keys {l : List (String × Association)}
    {t : String} (h : t ∈ l.map Prod.fst) : ∃ v, l.lookup t = some v := by
  induction l with
  | nil => simp at h
  | cons p rest ih =>
      obtain ⟨k, w⟩ := p
      rw [List.lookup]
      cases hbeq : t == k with
      | true => exact ⟨w, rfl⟩
      | false =>
          apply ih
          rcases List.mem_map.1 h with ⟨q, hq, hqf⟩
          rcases List.mem_cons.1 hq with rfl | hq'
          · exact absurd hqf (Ne.symm (beq_eq_false_iff_ne.1 hbeq))
          · exact List.mem_map.2 ⟨q, hq', hqf⟩

theorem indexDel_keys (l : List (String × Association)) (t : String) :
    (indexDel l t).map Prod.fst = (l.map Prod.fst).erase t := by
  induction l with
  | nil => rfl
  | cons p rest ih =>
      obtain ⟨k, w⟩ := p
      by_cases hk : k = t
      · subst hk
        simp [indexDel, List.erase_cons]
      · simp [indexDel, List.erase_cons, hk,
          show (k == t) = false from beq_eq_false_iff_ne.2 hk, ih]

theorem indexDel_lookup_ne (l : List (String × Association)) (t s : String)
    (h : s ≠ t) : (indexDel l t).lookup s = l.lookup s := by
  induction l with
  | nil => rfl
  | cons p rest ih =>
      obtain ⟨k, w⟩ := p
      rw [indexDel]
      by_cases hk : k = t
      · rw [if_pos hk, List.lookup,
          show (s == k) = false from beq_eq_false_iff_ne.2 (hk ▸ h)]
      · rw [if_neg hk, List.lookup, List.lookup]
        cases hbeq : s == k with
        | true => rfl
        | false => exact ih

theorem indexSet_keys_present (l : List (String × Association)) (t : String)
    (a : Association) (h : t ∈ l.map Prod.fst) :
    (indexSet l t a).map Prod.fst = l.map Prod.fst := by
  induction l with
  | nil => simp at h
  | cons p rest ih =>
      obtain ⟨k, w⟩ := p
      rw [indexSet]
      by_cases hk : k = t
      · rw [if_pos hk, List.map_cons, List.map_cons]
      · rw [if_neg hk, List.map_cons, List.map_cons, ih]
        rcases List.mem_map.1 h with ⟨q, hq, hqf⟩
        rcases List.mem_cons.1 hq with rfl | hq'
        · exact absurd hqf hk
        · exact List.mem_map.2 ⟨q, hq', hqf⟩

theorem indexSet_keys_absent (l : List (String × Association)) (t : String)
    (a : Association) (h : t ∉ l.map Prod.fst) :
    (indexSet l t a).map Prod.fst = l.map Prod.fst ++ [t] := by
  induction l with
  | nil => rfl
  | cons p rest ih =>
      obtain ⟨k, w⟩ := p
      rw [indexSet]
      by_cases hk : k = t
      · exact absurd (List.mem_map.2 ⟨(k, w), List.mem_cons_self _ _, hk⟩) h
      · rw [if_neg hk, List.map_cons, List.map_cons, ih
          (fun hm => h (List.mem_cons_of_mem _ hm)), List.cons_append]

theorem indexSet_lookup_self (l : List (String × Association)) (t : String)
    (a : Association) : (indexSet l t a).lookup t = some a := by
  induction l with
  | nil => rw [indexSet, List.lookup, beq_self_eq_true]
  | cons p rest ih =>
      obtain ⟨k, w⟩ := p
      rw [indexSet]
      by_cases hk : k = t
      · rw [if_pos hk, List.lookup, hk, beq_self_eq_true]
      · rw [if_neg hk, List.lookup,
          show (t == k) = false from beq_eq_false_iff_ne.2 (fun he => hk he.symm)]
        exact ih

theorem indexSet_lookup_ne (l : List (String × Association)) (t s : String)
    (a : Association) (h : s ≠ t) :
    (indexSet l t a).lookup s = l.lookup s := by
  induction l with
  | nil =>
      simp only [indexSet, List.lookup,
        show (s == t) = false from beq_eq_false_iff_ne.2 h]
  | cons p rest ih =>
      obtain ⟨k, w⟩ := p
      rw [indexSet]
      by_cases hk : k = t
      · rw [if_pos hk, List.lookup, List.lookup,
          show (s == k) = false from beq_eq_false_iff_ne.2 (hk ▸ h)]
      · rw [if_neg hk, List.lookup, List.lookup]
        cases hbeq : s == k with
        | true => rfl
        | false => exact ih

theorem rotate_keys (st : Associations) :
    (rotate_lists st).index.map Prod.fst = st.index.map Prod.fst := by
  show (st.index.map _).map Prod.fst = _
  rw [List.map_map]
  apply List.map_congr_left
  intro kv _
  by_cases hk : kv.1 ∈ st.new_expiry
  · simp [hk]
  · simp [hk]

theorem insertByKey_perm (key : String → ℚ) (x : String) (l : List String) :
    (insertByKey key x l).Perm (x :: l) := by
  induction l with
  | nil => exact List.Perm.refl _
  | cons y ys ih =>
      rw [insertByKey]
      split
      · exact List.Perm.refl _
      · exact (List.Perm.cons y ih).trans (List.Perm.swap x y ys)

theorem sortByKey_perm (key : String → ℚ) (l : List String) :
    (sortByKey key l).Perm l := by
  induction l with
  | nil => exact List.Perm.refl _
  | cons x xs ih =>
      exact (insertByKey_perm key x (sortByKey key xs)).trans (List.Perm.cons x ih)

theorem INV_empty : INV Associations.empty := ⟨List.nodup_nil, List.Perm.refl _⟩

theorem moving_not_updated (a : Association) : a.moving.updated = false := by
  simp [Association.moving, Association.updated]

theorem sum_map_one {α : Type} (l : List α) (f : α → Nat)
    (h : ∀ x ∈ l, f x = 1) : (l.map f).sum = l.length := by
  induction l with
  | nil => rfl
  | cons x xs ih =>
      rw [List.map_cons, List.sum_cons, h x (List.mem_cons_self _ _),
        List.length_cons, ih (fun y hy => h y (List.mem_cons_of_mem _ hy))]
      omega

/-- `remove_one` under the representation invariant, with a head in the
index: it succeeds, preserves the invariant, shortens `expiry` by the head,
and strictly decreases the purge measure. -/
theorem remove_one_cases (st : Associations) (t : String)
    (rest : List String) (a : Association) (hinv : INV st)
    (hE : st.expiry = t :: rest) (hL : st.index.lookup t = some a) :
    ∃ st', remove_one st = .ok st' ∧ INV st' ∧ st'.expiry = rest ∧
      purgeMeasure st' + 1 ≤ purgeMeasure st := by
  have hlists : (st.expiry ++ st.new_expiry).Nodup :=
    (hinv.2.nodup_iff).2 hinv.1
  rw [hE, List.cons_append, List.nodup_cons] at hlists
  obtain ⟨htn, hrn⟩ := hlists
  have htrest : t ∉ rest := fun hm => htn (List.mem_append.2 (Or.inl hm))
  have hperm : (t :: (rest ++ st.new_expiry)).Perm (st.index.map Prod.fst) := by
    have := hinv.2
    rw [hE, List.cons_append] at this
    exact this
  have hupd : updatedIn st t = a.updated := by
    rw [updatedIn, hL]
    rfl
  cases hu : a.updated with
  | true =>
      refine ⟨⟨st.index, rest, st.new_expiry ++ [t]⟩, ?_, ?_, rfl, ?_⟩
      · simp only [remove_one, hE, hL]
        rw [if_pos hu]
      · refine ⟨hinv.1, ?_⟩
        show (rest ++ (st.new_expiry ++ [t])).Perm (st.index.map Prod.fst)
        have h1 : rest ++ (st.new_expiry ++ [t])
            = (rest ++ st.new_expiry) ++ [t] := by rw [List.append_assoc]
        rw [h1]
        exact (List.perm_append_singleton _ _).trans hperm
      · have hw : updatedIn st t = true := hupd.trans hu
        show (rest.map (fun s => if updatedIn st s then 3 else 1)).sum
            + 2 * (st.new_expiry ++ [t]).length + 1 ≤ purgeMeasure st
        rw [purgeMeasure, hE, List.map_cons, List.sum_cons, hw,
          List.length_append]
        simp only [List.length_singleton, if_true]
        omega
  | false =>
      refine ⟨⟨indexDel st.index t, rest, st.new_expiry⟩, ?_, ?_, rfl, ?_⟩
      · simp only [remove_one, hE, hL]
        rw [if_neg (by simp [hu])]
      · constructor
        · show ((indexDel st.index t).map Prod.fst).Nodup
          rw [indexDel_keys]
          exact hinv.1.erase t
        · show (rest ++ st.new_expiry).Perm ((indexDel st.index t).map Prod.fst)
          rw [indexDel_keys]
          have h1 : rest ++ st.new_expiry
              = (t :: (rest ++ st.new_expiry)).erase t := by
            rw [List.erase_cons_head]
          rw [h1]
          exact hperm.erase t
      · have hw : updatedIn st t = false := hupd.trans hu
        have hmapeq : (rest.map (fun s =>
            if updatedIn (⟨indexDel st.index t, rest, st.new_expiry⟩ : Associations) s
            then 3 else 1))
            = rest.map (fun s => if updatedIn st s then 3 else 1) := by
          apply List.map_congr_left
          intro s hs
          have hst : s ≠ t := fun he => htrest (he ▸ hs)
          have heq : updatedIn
              (⟨indexDel st.index t, rest, st.new_expiry⟩ : Associations) s
              = updatedIn st s := by
            show (((indexDel st.index t).lookup s).map Association.updated).getD false
                = ((st.index.lookup s).map Association.updated).getD false
            rw [indexDel_lookup_ne st.index t s hst]
          rw [heq]
        show (rest.map (fun s =>
            if updatedIn (⟨indexDel st.index t, rest, st.new_expiry⟩ : Associations) s
            then 3 else 1)).sum + 2 * st.new_expiry.length + 1 ≤ purgeMeasure st
        rw [hmapeq, purgeMeasure, hE, List.map_cons, List.sum_cons, hw]
        simp only [Bool.false_eq_true, if_false]
        omega

/-- `rotate_lists` under the invariant with an exhausted `expiry` and a
non-empty index: the invariant is preserved, the new `expiry` is non-empty
and the purge measure strictly decreases. -/
theorem rotate_cases (st : Associations) (hinv : INV st)
    (hE : st.expiry = []) (hne : st.index ≠ []) :
    INV (rotate_lists st) ∧ (rotate_lists st).expiry ≠ [] ∧
      purgeMeasure (rotate_lists st) + 1 ≤ purgeMeasure st := by
  have hpermn : st.new_expiry.Perm (st.index.map Prod.fst) := by
    have := hinv.2
    rw [hE, List.nil_append] at this
    exact this
  have hkeysne : st.index.map Prod.fst ≠ [] := by
    intro h
    exact hne (List.map_eq_nil_iff.1 h)
  have hnne : st.new_expiry ≠ [] := by
    intro h
    rw [h] at hpermn
    exact hkeysne (hpermn.symm.eq_nil)
  have hsortperm : ((rotate_lists st).expiry).Perm st.new_expiry :=
    sortByKey_perm _ st.new_expiry
  refine ⟨⟨?_, ?_⟩, ?_, ?_⟩
  · rw [rotate_keys]
    exact hinv.1
  · show ((rotate_lists st).expiry ++ []).Perm ((rotate_lists st).index.map Prod.fst)
    rw [List.append_nil, rotate_keys]
    exact (hsortperm.trans hpermn)
  · intro h
    rw [h] at hsortperm
    exact hnne (hsortperm.symm.eq_nil)
  · have hnew : (rotate_lists st).new_expiry = ([] : List String) := rfl
    simp only [purgeMeasure, hE, hnew, List.map_nil, List.sum_nil,
      List.length_nil]
    rw [sum_map_one _ _ ?_]
    · rw [hsortperm.length_eq]
      have h1 : 1 ≤ st.new_expiry.length := by
        cases hn : st.new_expiry with
        | nil => exact absurd hn hnne
        | cons x xs => simp
      omega
    · intro s hs
      have hsn : s ∈ st.new_expiry := hsortperm.subset hs
      have hsk : s ∈ st.index.map Prod.fst := hpermn.subset hsn
      obtain ⟨b, hb⟩ := lookup_isSome_of_mem_keys hsk
      have hlk : (rotate_lists st).index.lookup s = some b.moving := by
        show (st.index.map
          (fun kv => if kv.1 ∈ st.new_expiry then (kv.1, kv.2.moving) else kv)).lookup s
            = some b.moving
        rw [lookup_map_cond st.index st.new_expiry s b hb, if_pos hsn]
      rw [updatedIn, hlk]
      simp [moving_not_updated]

theorem purgeLoop_spec : ∀ (fuel : Nat) (st : Associations) (now : ℚ),
    INV st → st.expiry ≠ [] → purgeMeasure st < fuel →
    ∃ st', purgeLoop fuel st now = .ok st' ∧ INV st' ∧ PurgePost now st' := by
  intro fuel
  induction fuel with
  | zero =>
      intro st now _ _ h
      exact absurd h (Nat.not_lt_zero _)
  | succ fuel ih =>
      intro st now hinv hne hmeas
      obtain ⟨t, rest, hE⟩ : ∃ t rest, st.expiry = t :: rest := by
        cases hEe : st.expiry with
        | nil => exact absurd hEe hne
        | cons x xs => exact ⟨x, xs, rfl⟩
      have htk : t ∈ st.index.map Prod.fst := by
        apply hinv.2.subset
        rw [hE]
        exact List.mem_append.2 (Or.inl (List.mem_cons_self _ _))
      obtain ⟨a, hL⟩ := lookup_isSome_of_mem_keys htk
      rw [purgeLoop]
      simp only [hE, hL]
      by_cases hcond : a.orig_expires ≤ now ∨ MAX_ASSOCS < st.index.length
      · rw [if_pos hcond]
        obtain ⟨st', hok, hinv', hexp', hmeasdec⟩ :=
          remove_one_cases st t rest a hinv hE hL
        simp only [hok]
        by_cases hre : st'.expiry = []
        · rw [if_pos hre]
          by_cases hri : st'.index = []
          · rw [if_pos hri]
            exact ⟨st', rfl, hinv', Or.inl hri⟩
          · rw [if_neg hri]
            obtain ⟨hinvr, hner, hmr⟩ := rotate_cases st' hinv' hre hri
            exact ih (rotate_lists st') now hinvr hner (by omega)
        · rw [if_neg hre]
          exact ih st' now hinv' hre (by omega)
      · rw [if_neg hcond]
        rw [not_or] at hcond
        exact ⟨st, rfl, hinv,
          Or.inr ⟨Nat.le_of_not_lt hcond.2, t, rest, a, hE, hL,
            lt_of_not_le hcond.1⟩⟩

theorem purge_spec (st : Associations) (now : ℚ) (hinv : INV st)
    (hne : st.index ≠ [] → st.expiry ≠ []) :
    ∃ st', purge st now = .ok st' ∧ INV st' ∧ PurgePost now st' := by
  rw [purge]
  by_cases h : st.index = []
  · rw [if_pos h]
    exact ⟨st, rfl, hinv, Or.inl h⟩
  · rw [if_neg h]
    exact purgeLoop_spec _ st now hinv (hne h) (Nat.lt_succ_self _)

/-! ### `add`, operation sequences, C9 and C4 -/

theorem lt_expiryAt (now ttl r : ℚ) (httl : 0 < ttl) (hr : 0 ≤ r) :
    now < expiryAt now ttl r := by
  unfold expiryAt
  nlinarith

/-- `add` on a well-formed store succeeds, preserves the invariant and the
non-empty-expiry property, bounds the index by `MAX_ASSOCS + 1` (`purge`
enforces `MAX_ASSOCS`, then at most one entry is created), and — for a
positive TTL and a non-negative random draw — leaves at the head of
`expiry` an association whose `orig_expires` is still in the future. -/
theorem add_spec (st : Associations) (target : String) (fqdns : List String)
    (ttl now r : ℚ) (hinv : INV st) (hne : st.index ≠ [] → st.expiry ≠ []) :
    ∃ st₂, add st target fqdns ttl now r = .ok st₂ ∧ INV st₂ ∧
      (st₂.index ≠ [] → st₂.expiry ≠ []) ∧
      st₂.index.length ≤ MAX_ASSOCS + 1 ∧
      (0 < ttl → 0 ≤ r →
        ∃ t rest a, st₂.expiry = t :: rest ∧ st₂.index.lookup t = some a ∧
          now < a.orig_expires) := by
  obtain ⟨st', hok, hinv', hpost⟩ := purge_spec st now hinv hne
  rw [add, hok]
  rcases hpost with hidx | ⟨hlen, t, rest, a, hE, hL, hnow⟩
  · -- the purged store is empty: a fresh association is created
    have hEN : st'.expiry = [] ∧ st'.new_expiry = [] := by
      have hp := hinv'.2
      rw [hidx] at hp
      simp only [List.map_nil] at hp
      exact List.append_eq_nil.1 hp.eq_nil
    have hLnone : st'.index.lookup target = none := by rw [hidx]; rfl
    simp only [hLnone]
    rw [if_pos hEN.2]
    refine ⟨_, rfl, ?_, ?_, ?_, ?_⟩
    · constructor
      · show ((indexSet st'.index target _).map Prod.fst).Nodup
        rw [hidx]
        simp [indexSet]
      · show ((st'.expiry ++ [target]) ++ st'.new_expiry).Perm
          ((indexSet st'.index target _).map Prod.fst)
        rw [hidx, hEN.1, hEN.2]
        simp [indexSet]
    · intro _
      show st'.expiry ++ [target] ≠ []
      simp
    · show (indexSet st'.index target _).length ≤ MAX_ASSOCS + 1
      rw [hidx]
      simp [indexSet, MAX_ASSOCS]
    · intro hts hr
      refine ⟨target, st'.expiry, Association.make target fqdns ttl now r, ?_, ?_, ?_⟩
      · show st'.expiry ++ [target] = target :: st'.expiry
        rw [hEN.1]
        rfl
      · exact indexSet_lookup_self _ _ _
      · exact lt_expiryAt now ttl r hts hr
  · -- the purged store is non-empty and within bounds
    have htk : t ∈ st'.index.map Prod.fst := mem_keys_of_lookup hL
    cases hLt : st'.index.lookup target with
    | some b =>
        -- update in place
        have hkeys := indexSet_keys_present st'.index target
          (b.update fqdns now r) (mem_keys_of_lookup hLt)
        simp only [hLt]
        refine ⟨_, rfl, ?_, ?_, ?_, ?_⟩
        · constructor
          · show ((indexSet st'.index target _).map Prod.fst).Nodup
            rw [hkeys]
            exact hinv'.1
          · show (st'.expiry ++ st'.new_expiry).Perm
              ((indexSet st'.index target _).map Prod.fst)
            rw [hkeys]
            exact hinv'.2
        · intro _
          show st'.expiry ≠ []
          rw [hE]
          simp
        · show (indexSet st'.index target _).length ≤ MAX_ASSOCS + 1
          have hl : (indexSet st'.index target (b.update fqdns now r)).length
              = st'.index.length := by
            rw [← List.length_map (indexSet st'.index target _) Prod.fst, hkeys,
              List.length_map]
          rw [hl]
          omega
        · intro _ _
          by_cases ht : t = target
          · subst ht
            have hab : b = a := by
              rw [hLt] at hL
              exact Option.some.inj hL
            refine ⟨t, rest, b.update fqdns now r, hE, indexSet_lookup_self _ _ _, ?_⟩
            show now < b.orig_expires
            rw [hab]
            exact hnow
          · exact ⟨t, rest, a, hE,
              by rw [indexSet_lookup_ne st'.index target t _ ht]; exact hL, hnow⟩
    | none =>
        -- create a fresh association
        have htnk : target ∉ st'.index.map Prod.fst := by
          intro hm
          obtain ⟨v, hv⟩ := lookup_isSome_of_mem_keys hm
          rw [hLt] at hv
          cases hv
        have hkeys := indexSet_keys_absent st'.index target
          (Association.make target fqdns ttl now r) htnk
        have hnodup2 : ((indexSet st'.index target
            (Association.make target fqdns ttl now r)).map Prod.fst).Nodup := by
          rw [hkeys]
          refine List.Nodup.append hinv'.1 (List.nodup_singleton _) ?_
          intro x hx hmem
          rw [List.mem_singleton.1 hmem] at hx
          exact htnk hx
        have hlen2 : (indexSet st'.index target
            (Association.make target fqdns ttl now r)).length
            = st'.index.length + 1 := by
          rw [← List.length_map (indexSet st'.index target _) Prod.fst, hkeys,
            List.length_append, List.length_map, List.length_singleton]
        have httarget : t ≠ target := fun h => htnk (h ▸ htk)
        have hlk2 : (indexSet st'.index target
            (Association.make target fqdns ttl now r)).lookup t = some a := by
          rw [indexSet_lookup_ne st'.index target t _ httarget]
          exact hL
        simp only [hLt]
        by_cases hN : st'.new_expiry = []
        · rw [if_pos hN]
          refine ⟨_, rfl, ?_, ?_, ?_, ?_⟩
          · refine ⟨hnodup2, ?_⟩
            show ((st'.expiry ++ [target]) ++ st'.new_expiry).Perm
              ((indexSet st'.index target _).map Prod.fst)
            rw [hkeys, hN, List.append_nil]
            refine List.Perm.append_right [target] ?_
            have hp := hinv'.2
            rw [hN, List.append_nil] at hp
            exact hp
          · intro _
            show st'.expiry ++ [target] ≠ []
            simp
          · show (indexSet st'.index target _).length ≤ MAX_ASSOCS + 1
            rw [hlen2]
            omega
          · intro _ _
            refine ⟨t, rest ++ [target], a, ?_, hlk2, hnow⟩
            show st'.expiry ++ [target] = t :: (rest ++ [target])
            rw [hE, List.cons_append]
        · rw [if_neg hN]
          refine ⟨_, rfl, ?_, ?_, ?_, ?_⟩
          · refine ⟨hnodup2, ?_⟩
            show (st'.expiry ++ (st'.new_expiry ++ [target])).Perm
              ((indexSet st'.index target _).map Prod.fst)
            rw [hkeys, ← List.append_assoc]
            exact List.Perm.append_right [target] hinv'.2
          · intro _
            show st'.expiry ≠ []
            rw [hE]
            simp
          · show (indexSet st'.index target _).length ≤ MAX_ASSOCS + 1
            rw [hlen2]
            omega
          · intro _ _
            exact ⟨t, rest, a, hE, hlk2, hnow⟩

/-- Every operation sequence on a well-formed store succeeds and preserves
well-formedness (index keys unique, expiry lists a permutation of the keys,
a non-empty index implies a non-empty `expiry`). -/
theorem runOps_safe : ∀ (ops : List CacheOp) (st : Associations), INV st →
    (st.index ≠ [] → st.expiry ≠ []) →
    ∃ st', runOps st ops = .ok st' ∧ INV st' ∧
      (st'.index ≠ [] → st'.expiry ≠ []) := by
  intro ops
  induction ops with
  | nil => exact fun st h1 h2 => ⟨st, rfl, h1, h2⟩
  | cons op ops ih =>
      intro st h1 h2
      cases op with
      | add t fq ttl now r =>
          obtain ⟨st₂, hok, hi, hn, _, _⟩ := add_spec st t fq ttl now r h1 h2
          rw [runOps]
          simp only [runOp, hok]
          exact ih st₂ hi hn
      | purge now =>
          obtain ⟨st₂, hok, hi, hpost⟩ := purge_spec st now h1 h2
          rw [runOps]
          simp only [runOp, hok]
          refine ih st₂ hi ?_
          intro hne
          rcases hpost with h | ⟨_, t, rest, a, hE, _, _⟩
          · exact absurd h hne
          · rw [hE]
            simp
      | get k =>
          rw [runOps]
          simp only [runOp]
          exact ih st h1 h2

theorem runOps_append (l₁ l₂ : List CacheOp) : ∀ st : Associations,
    runOps st (l₁ ++ l₂)
      = match runOps st l₁ with
        | .error e => .error e
        | .ok st' => runOps st' l₂ := by
  induction l₁ with
  | nil => intro st; rfl
  | cons op ops ih =>
      intro st
      rw [List.cons_append, runOps, runOps]
      cases runOp st op with
      | error e => rfl
      | ok st' => exact ih st'

/-- C9: starting from the empty store, every sequence of `add`, `get` and
`purge` operations runs without a failing list access: whenever the purge
loop tests its condition the `expiry` list is non-empty (a non-empty index
forces a non-empty `expiry`), so the `expiry[0]` read in `purge` and the
`pop(0)` in `remove_one` never hit an empty list (no `popEmpty`,
`danglingRef` or `fuelOut` error is ever produced). -/
theorem purge_pop_safe (ops : List CacheOp) :
    ∃ st, runOps Associations.empty ops = .ok st ∧
      (st.index ≠ [] → st.expiry ≠ []) := by
  obtain ⟨st, h1, _, h3⟩ := runOps_safe ops Associations.empty INV_empty
    (fun h => absurd rfl h)
  exact ⟨st, h1, h3⟩

/-- C4 counterexample: on a store configured with `max_assocs = 2`, the
trace add(A,ttl 100)@0, add(A,ttl 200)@1, add(B,ttl 1000)@2,
add(C,ttl 1000)@150 (all with random draw 1/2) ends with 3 > 2 index
entries while the earliest `orig_expires` among `expiry ++ new_expiry` is
100 ≤ 150: `purge` compares against the module constant `MAX_ASSOCS`, never
against the configured `max_assocs`, and the refreshed association A keeps
its stale `orig_expires`. -/
theorem add_bound_configured_counterexample :
    ∃ st, runOps Associations.empty
        [CacheOp.add "A" [] 100 0 (1/2), CacheOp.add "A" [] 200 1 (1/2),
         CacheOp.add "B" [] 1000 2 (1/2), CacheOp.add "C" [] 1000 150 (1/2)]
      = .ok st ∧
      ¬ st.index.length ≤ configuredMaxAssocs (some 2) ∧
      ∃ q, earliestOrig st = some q ∧ ¬ (150 : ℚ) < q := by
  have hAB : (("A" : String) == "B") = false := by decide
  have hBA : (("B" : String) == "A") = false := by decide
  have hAC : (("A" : String) == "C") = false := by decide
  have hCA : (("C" : String) == "A") = false := by decide
  have hBC : (("B" : String) == "C") = false := by decide
  have hCB : (("C" : String) == "B") = false := by decide
  refine ⟨⟨[("A", ⟨"A", [], 100, 101, 100⟩), ("B", ⟨"B", [], 1000, 1002, 1002⟩),
    ("C", ⟨"C", [], 1000, 1150, 1150⟩)], ["B"], ["A", "C"]⟩, ?_, ?_, 100, ?_, ?_⟩
  · norm_num +decide [runOps, runOp, add, purge, purgeLoop, purgeMeasure,
      updatedIn, remove_one, rotate_lists, Associations.empty, expiryAt,
      Association.make, Association.update, Association.updated,
      Association.moving, insertByKey, sortByKey, List.lookup, indexSet,
      indexDel, MAX_ASSOCS, hAB, hBA, hAC, hCA, hBC, hCB]
  · norm_num [configuredMaxAssocs]
  · norm_num [earliestOrig, combinedOrigs, List.filterMap, List.lookup,
      List.foldl, min_def, hAB, hBA, hAC, hCA, hBC, hCB]
  · norm_num

/-- C4 (amended): after any operation sequence followed by an `add` with a
positive TTL and non-negative random draw, the index holds at most
`MAX_ASSOCS + 1` entries (the module constant, not the configured
`max_assocs`) and the association at the head of `expiry` has
`orig_expires` strictly greater than the time of that `add`. -/
theorem add_seq_bound (ops : List CacheOp) (target : String)
    (fqdns : List String) (ttl now r : ℚ) (hts : 0 < ttl) (hr : 0 ≤ r) :
    ∃ st, runOps Associations.empty
        (ops ++ [CacheOp.add target fqdns ttl now r]) = .ok st ∧
      st.index.length ≤ MAX_ASSOCS + 1 ∧
      ∃ t rest a, st.expiry = t :: rest ∧ st.index.lookup t = some a ∧
        now < a.orig_expires := by
  obtain ⟨st₁, h1, hi1, hn1⟩ := runOps_safe ops Associations.empty INV_empty
    (fun h => absurd rfl h)
  obtain ⟨st₂, hok, _, _, hlen, hhead⟩ :=
    add_spec st₁ target fqdns ttl now r hi1 hn1
  refine ⟨st₂, ?_, hlen, hhead hts hr⟩
  rw [runOps_append, h1]
  show runOps st₁ [CacheOp.add target fqdns ttl now r] = .ok st₂
  rw [runOps]
  simp only [runOp, hok]
  rfl

theorem add_seq_bound_witness :
    (0 : ℚ) < 100 ∧ (0 : ℚ) ≤ 1/2 ∧
    ∃ st, runOps Associations.empty
        ([] ++ [CacheOp.add "A" [] 100 0 (1/2)]) = .ok st ∧
      st.index.length ≤ MAX_ASSOCS + 1 ∧
      ∃ t rest a, st.expiry = t :: rest ∧ st.index.lookup t = some a ∧
        (0 : ℚ) < a.orig_expires :=
  ⟨by norm_num, by norm_num,
    add_seq_bound [] "A" [] 100 0 (1/2) (by norm_num) (by norm_num)⟩

end Shodohflo

theorem SD_cons {y : Scope} {ys : List Scope} :
    SD (y :: ys) ↔ (∀ t ∈ ys, t.scope < y.scope) ∧ SD ys := by
  simp [SD, List.pairwise_cons]

theorem mem_insertDesc {a x : Scope} {l : List Scope} :
    a ∈ insertDesc Scope.scope x l ↔ a = x ∨ a ∈ l := by
  induction l with
  | nil => simp [insertDesc]
  | cons y ys ih =>
      rw [insertDesc]
      by_cases h : x.scope < y.scope
      · rw [if_pos h]
        simp only [List.mem_cons, ih]
        tauto
      · rw [if_neg h]
        simp [List.mem_cons]

theorem insertDesc_front {x : Scope} {l : List Scope}
    (h : ∀ t ∈ l, t.scope < x.scope) :
    insertDesc Scope.scope x l = x :: l := by
  cases l with
  | nil => rfl
  | cons y ys =>
      rw [insertDesc, if_neg (not_lt.2 (le_of_lt (h y (List.mem_cons_self _ _))))]

theorem sortDesc_append_singleton {x : Scope} {l : List Scope} (hsd : SD l)
    (hne : ∀ t ∈ l, t.scope ≠ x.scope) :
    sortDesc Scope.scope (l ++ [x]) = insertDesc Scope.scope x l := by
  induction l with
  | nil => rfl
  | cons y ys ih =>
      obtain ⟨hy, hys⟩ := SD_cons.1 hsd
      rw [List.cons_append, sortDesc,
        ih hys (fun t ht => hne t (List.mem_cons_of_mem _ ht))]
      by_cases hxy : x.scope < y.scope
      · simp only [insertDesc]
        rw [if_pos hxy, insertDesc_front]
        intro t ht
        rcases mem_insertDesc.1 ht with rfl | ht'
        · exact hxy
        · exact hy t ht'
      · have hyx : y.scope < x.scope :=
          lt_of_le_of_ne (not_lt.1 hxy) (hne y (List.mem_cons_self _ _))
        simp only [insertDesc]
        rw [if_neg hxy, insertDesc_front (fun t ht => lt_trans (hy t ht) hyx)]
        show insertDesc Scope.scope y (x :: ys) = x :: y :: ys
        rw [insertDesc, if_pos hyx, insertDesc_front hy]

theorem insertDesc_SD {x : Scope} {l : List Scope} (hsd : SD l)
    (hne : ∀ t ∈ l, t.scope ≠ x.scope) :
    SD (insertDesc Scope.scope x l) := by
  induction l with
  | nil => simp [insertDesc, SD]
  | cons y ys ih =>
      obtain ⟨hy, hys⟩ := SD_cons.1 hsd
      rw [insertDesc]
      by_cases hxy : x.scope < y.scope
      · rw [if_pos hxy]
        refine SD_cons.2 ⟨?_, ih hys (fun t ht => hne t (List.mem_cons_of_mem _ ht))⟩
        intro t ht
        rcases mem_insertDesc.1 ht with rfl | ht'
        · exact hxy
        · exact hy t ht'
      · have hyx : y.scope < x.scope :=
          lt_of_le_of_ne (not_lt.1 hxy) (hne y (List.mem_cons_self _ _))
        rw [if_neg hxy]
        refine SD_cons.2 ⟨?_, hsd⟩
        intro t ht
        rcases List.mem_cons.1 ht with rfl | ht'
        · exact hyx
        · exact lt_trans (hy t ht') hyx

theorem replaceScope_map_scope (l : List Scope) (s : Scope) :
    (replaceScope l s).map Scope.scope = l.map Scope.scope := by
  induction l with
  | nil => rfl
  | cons t ts ih =>
      rw [replaceScope]
      by_cases h : t.scope = s.scope
      · rw [if_pos h, List.map_cons, List.map_cons, h]
      · rw [if_neg h, List.map_cons, List.map_cons, ih]

theorem replaceScope_SD {l : List Scope} (s : Scope) (hsd : SD l) :
    SD (replaceScope l s) := by
  show (List.map Scope.scope (replaceScope l s)).Pairwise _
  rw [replaceScope_map_scope]
  exact hsd

theorem find_insertDesc {x : Scope} {l : List Scope} (hsd : SD l)
    (hne : ∀ t ∈ l, t.scope ≠ x.scope) (bits : Nat) :
    (insertDesc Scope.scope x l).find? (fun s => s.scope ≤ bits)
      = stepBest x bits (l.find? (fun s => s.scope ≤ bits)) := by
  induction l with
  | nil =>
      rw [insertDesc, List.find?_nil, stepBest]
      by_cases hxb : x.scope ≤ bits
      · rw [if_pos hxb, List.find?_cons_of_pos _ (by simpa using hxb)]
      · rw [if_neg hxb, List.find?_cons_of_neg _ (by simpa using hxb),
          List.find?_nil]
  | cons y ys ih =>
      obtain ⟨hy, hys⟩ := SD_cons.1 hsd
      have hne' : ∀ t ∈ ys, t.scope ≠ x.scope :=
        fun t ht => hne t (List.mem_cons_of_mem _ ht)
      rw [insertDesc]
      by_cases hxy : x.scope < y.scope
      · rw [if_pos hxy]
        by_cases hyb : y.scope ≤ bits
        · rw [List.find?_cons_of_pos _ (by simpa using hyb),
            List.find?_cons_of_pos _ (by simpa using hyb), stepBest,
            if_neg (fun hc => (not_le.2 hxy) hc.2)]
        · rw [List.find?_cons_of_neg _ (by simpa using hyb),
            List.find?_cons_of_neg _ (by simpa using hyb)]
          exact ih hys hne'
      · have hyx : y.scope < x.scope :=
          lt_of_le_of_ne (not_lt.1 hxy) (hne y (List.mem_cons_self _ _))
        rw [if_neg hxy]
        by_cases hxb : x.scope ≤ bits
        · rw [List.find?_cons_of_pos _ (by simpa using hxb)]
          cases hf : (y :: ys).find? (fun s => s.scope ≤ bits) with
          | none => rw [stepBest, if_pos hxb]
          | some s =>
              have hsm := List.mem_of_find?_eq_some hf
              have hsx : s.scope ≤ x.scope := by
                rcases List.mem_cons.1 hsm with rfl | hs'
                · exact le_of_lt hyx
                · exact le_of_lt (lt_trans (hy s hs') hyx)
              rw [stepBest, if_pos ⟨hxb, hsx⟩]
        · rw [List.find?_cons_of_neg _ (by simpa using hxb)]
          cases hf : (y :: ys).find? (fun s => s.scope ≤ bits) with
          | none => rw [stepBest, if_neg hxb]
          | some s => rw [stepBest, if_neg (fun hc => hxb hc.1)]

theorem find_replaceScope {s₀ : Scope} {l : List Scope} (hsd : SD l)
    (hex : ∃ t ∈ l, t.scope = s₀.scope) (bits : Nat) :
    (replaceScope l s₀).find? (fun s => s.scope ≤ bits)
      = stepBest s₀ bits (l.find? (fun s => s.scope ≤ bits)) := by
  induction l with
  | nil => simp at hex
  | cons t ts ih =>
      obtain ⟨ht, hts⟩ := SD_cons.1 hsd
      rw [replaceScope]
      by_cases hteq : t.scope = s₀.scope
      · rw [if_pos hteq]
        by_cases hsb : s₀.scope ≤ bits
        · rw [List.find?_cons_of_pos _ (by simpa using hsb),
            List.find?_cons_of_pos _ (by simpa [hteq] using hsb), stepBest,
            if_pos ⟨hsb, le_of_eq hteq⟩]
        · rw [List.find?_cons_of_neg _ (by simpa using hsb),
            List.find?_cons_of_neg _ (by simpa [hteq] using hsb)]
          cases hf : ts.find? (fun s => s.scope ≤ bits) with
          | none => rw [stepBest, if_neg hsb]
          | some s => rw [stepBest, if_neg (fun hc => hsb hc.1)]
      · rw [if_neg hteq]
        obtain ⟨u, hu, hus⟩ := hex
        rcases List.mem_cons.1 hu with rfl | hu'
        · exact absurd hus hteq
        have hsx : s₀.scope < t.scope := hus ▸ ht u hu'
        by_cases htb : t.scope ≤ bits
        · rw [List.find?_cons_of_pos _ (by simpa using htb),
            List.find?_cons_of_pos _ (by simpa using htb), stepBest,
            if_neg (fun hc => (not_le.2 hsx) hc.2)]
        · rw [List.find?_cons_of_neg _ (by simpa using htb),
            List.find?_cons_of_neg _ (by simpa using htb)]
          exact ih hts ⟨u, hu', hus⟩

/-- `add_scope` on a well-formed node: the invariant is preserved and
`get_scope` is refined by `stepBest`, whether the scope replaces an equal
slot or is inserted. -/
theorem addScope_main (node : Node) (s₀ : Scope) (h : NodeWF node) :
    NodeWF (node.add_scope s₀) ∧
    ∀ bits, (node.add_scope s₀).get_scope bits
      = stepBest s₀ bits (node.get_scope bits) := by
  cases hany : node.scopes.any (fun t => t.scope == s₀.scope) with
  | true =>
      have hex : ∃ t ∈ node.scopes, t.scope = s₀.scope := by
        obtain ⟨t, ht, hbeq⟩ := List.any_eq_true.1 hany
        exact ⟨t, ht, beq_iff_eq.mp hbeq⟩
      have hrepl : node.add_scope s₀
          = { node with scopes := replaceScope node.scopes s₀ } := by
        rw [Node.add_scope, if_pos hany]
      rw [hrepl]
      exact ⟨replaceScope_SD s₀ h,
        fun bits => find_replaceScope h hex bits⟩
  | false =>
      have hne : ∀ t ∈ node.scopes, t.scope ≠ s₀.scope := by
        intro t ht heq
        have hbeq : (t.scope == s₀.scope) = true := beq_iff_eq.mpr heq
        have hat : node.scopes.any (fun u => u.scope == s₀.scope) = true := by
          rw [List.any_eq_true]
          exact ⟨t, ht, hbeq⟩
        rw [hany] at hat
        cases hat
      have hcond : ¬ node.scopes.any (fun t => t.scope == s₀.scope) = true := by
        rw [hany]
        simp
      have hins : node.add_scope s₀
          = { node with scopes := sortDesc Scope.scope (node.scopes ++ [s₀]) } := by
        rw [Node.add_scope, if_neg hcond]
      rw [hins]
      constructor
      · show SD (sortDesc Scope.scope (node.scopes ++ [s₀]))
        rw [sortDesc_append_singleton h hne]
        exact insertDesc_SD h hne
      · intro bits
        show (sortDesc Scope.scope (node.scopes ++ [s₀])).find? _ = _
        rw [sortDesc_append_singleton h hne]
        exact find_insertDesc h hne bits

theorem stepBest_of_not_le {s₀ : Scope} {bits : Nat} (h : ¬ s₀.scope ≤ bits) :
    ∀ old, stepBest s₀ bits old = old
  | none => by rw [stepBest, if_neg h]
  | some s => by rw [stepBest, if_neg (fun hc => h hc.1)]

theorem netsLookup_append (l₁ l₂ : List (Nat × Node)) (a : Nat) :
    (l₁ ++ l₂).lookup a
      = match l₁.lookup a with
        | some v => some v
        | none => l₂.lookup a := by
  induction l₁ with
  | nil => rfl
  | cons p rest ih =>
      obtain ⟨k, w⟩ := p
      rw [List.cons_append, List.lookup, List.lookup]
      cases hbeq : a == k with
      | true => rfl
      | false => exact ih

theorem nodeSet_lookup_self (l : List (Nat × Node)) (a : Nat) (v : Node) :
    (nodeSet l a v).lookup a = some v := by
  induction l with
  | nil => rw [nodeSet, List.lookup, beq_self_eq_true]
  | cons p rest ih =>
      obtain ⟨k, w⟩ := p
      rw [nodeSet]
      by_cases hk : k = a
      · rw [if_pos hk, List.lookup, hk, beq_self_eq_true]
      · rw [if_neg hk, List.lookup,
          show (a == k) = false from beq_eq_false_iff_ne.2 (fun he => hk he.symm)]
        exact ih

theorem nodeSet_lookup_ne (l : List (Nat × Node)) (a b : Nat) (v : Node)
    (h : b ≠ a) : (nodeSet l a v).lookup b = l.lookup b := by
  induction l with
  | nil =>
      simp only [nodeSet, List.lookup,
        show (b == a) = false from beq_eq_false_iff_ne.2 h]
  | cons p rest ih =>
      obtain ⟨k, w⟩ := p
      rw [nodeSet]
      by_cases hk : k = a
      · rw [if_pos hk, List.lookup, List.lookup,
          show (b == k) = false from beq_eq_false_iff_ne.2 (hk ▸ h)]
      · rw [if_neg hk, List.lookup, List.lookup]
        cases hbeq : b == k with
        | true => rfl
        | false => exact ih

theorem lastMax_append (acc : Option Scope) (l₁ l₂ : List SubnetSpec) :
    lastMax acc (l₁ ++ l₂) = lastMax (lastMax acc l₁) l₂ := by
  induction l₁ generalizing acc with
  | nil => cases acc <;> rfl
  | cons e es ih =>
      cases acc with
      | none =>
          rw [List.cons_append, lastMax, lastMax]
          exact ih _
      | some v =>
          rw [List.cons_append, lastMax, lastMax]
          exact ih _

theorem bestSlot_append (pre : List SubnetSpec) (e : SubnetSpec) (a bits : Nat) :
    bestSlot (pre ++ [e]) a bits
      = if e.addr = a ∧ e.prefixLen ≤ bits
        then stepBest (scopeOf e) bits (bestSlot pre a bits)
        else bestSlot pre a bits := by
  have key : ∀ acc : Option Scope,
      lastMax acc
        (List.filter (fun f => f.addr == a && decide (f.prefixLen ≤ bits)) [e])
      = if e.addr = a ∧ e.prefixLen ≤ bits
        then stepBest (scopeOf e) bits acc else acc := by
    intro acc
    by_cases hc : e.addr = a ∧ e.prefixLen ≤ bits
    · rw [if_pos hc]
      have hf : List.filter
          (fun f => f.addr == a && decide (f.prefixLen ≤ bits)) [e] = [e] := by
        simp [List.filter_cons, hc.1, hc.2]
      rw [hf]
      cases acc with
      | none =>
          rw [lastMax, lastMax, stepBest,
            if_pos (show (scopeOf e).scope ≤ bits from hc.2)]
      | some s =>
          rw [lastMax, lastMax, stepBest]
          by_cases hs : s.scope ≤ e.prefixLen
          · rw [if_pos hs, if_pos (show (scopeOf e).scope ≤ bits ∧
              s.scope ≤ (scopeOf e).scope from ⟨hc.2, hs⟩)]
          · rw [if_neg hs, if_neg (fun hh : (scopeOf e).scope ≤ bits ∧
              s.scope ≤ (scopeOf e).scope => hs hh.2)]
    · rw [if_neg hc]
      have hf : List.filter
          (fun f => f.addr == a && decide (f.prefixLen ≤ bits)) [e] = [] := by
        rcases not_and_or.mp hc with h1 | h2
        · simp [List.filter_cons, beq_eq_false_iff_ne.mpr h1]
        · simp [List.filter_cons, h2]
      rw [hf, lastMax]
  rw [bestSlot, List.filter_append, lastMax_append, key]
  rfl

theorem buildInv_step (pre : List SubnetSpec) (nets : List (Nat × Node))
    (e : SubnetSpec) (h : BuildInv pre nets) :
    BuildInv (pre ++ [e]) (netsAdd nets e) := by
  obtain ⟨h1, h2, h3⟩ := h
  rw [netsAdd]
  cases hL : nets.lookup e.addr with
  | some node =>
      have hwf := h2 e.addr node hL
      obtain ⟨hwf', hstep⟩ := addScope_main node (scopeOf e) hwf
      have hnode : ∀ bits, node.get_scope bits = bestSlot pre e.addr bits := by
        intro bits
        have hx := h1 e.addr bits
        rw [getScopeAt, hL] at hx
        simpa using hx
      refine ⟨?_, ?_, ?_⟩
      · intro a bits
        rw [bestSlot_append]
        by_cases ha : a = e.addr
        · subst ha
          rw [getScopeAt, nodeSet_lookup_self]
          simp only [Option.some_bind]
          show (node.add_scope (scopeOf e)).get_scope bits = _
          rw [hstep bits, hnode bits]
          by_cases hpb : e.prefixLen ≤ bits
          · rw [if_pos (show True ∧ e.prefixLen ≤ bits from ⟨trivial, hpb⟩)]
          · rw [if_neg (fun hc : True ∧ e.prefixLen ≤ bits => hpb hc.2),
              stepBest_of_not_le (show ¬ (scopeOf e).scope ≤ bits from hpb)]
        · rw [getScopeAt, nodeSet_lookup_ne _ _ _ _ ha,
            if_neg (fun hc => ha hc.1.symm)]
          exact h1 a bits
      · intro a node' hLk
        by_cases ha : a = e.addr
        · subst ha
          rw [nodeSet_lookup_self] at hLk
          have he : node.add_scope ((Node.new e).scopes.headD (scopeOf e)) = node' :=
            Option.some.inj hLk
          rw [← he]
          exact hwf'
        · rw [nodeSet_lookup_ne _ _ _ _ ha] at hLk
          exact h2 a node' hLk
      · intro a
        by_cases ha : a = e.addr
        · subst ha
          rw [nodeSet_lookup_self]
          refine iff_of_true rfl ⟨e, ?_, rfl⟩
          exact List.mem_append.2 (Or.inr (List.mem_singleton.2 rfl))
        · rw [nodeSet_lookup_ne _ _ _ _ ha]
          rw [h3 a]
          constructor
          · rintro ⟨f, hf, hfa⟩
            exact ⟨f, List.mem_append.2 (Or.inl hf), hfa⟩
          · rintro ⟨f, hf, hfa⟩
            rcases List.mem_append.1 hf with hf' | hf'
            · exact ⟨f, hf', hfa⟩
            · rw [List.mem_singleton.1 hf'] at hfa
              exact absurd hfa.symm ha
  | none =>
      have hnopre : ¬ ∃ f ∈ pre, f.addr = e.addr := by
        intro hex
        have hsome := (h3 e.addr).2 hex
        rw [hL] at hsome
        cases hsome
      have hlk : ∀ a, (nets ++ [(e.addr, Node.new e)]).lookup a
          = if a = e.addr then some (Node.new e) else nets.lookup a := by
        intro a
        rw [netsLookup_append]
        by_cases ha : a = e.addr
        · subst ha
          rw [hL, if_pos rfl, List.lookup, beq_self_eq_true]
        · rw [if_neg ha]
          cases hLa : nets.lookup a with
          | some v => rfl
          | none =>
              rw [List.lookup,
                show (a == e.addr) = false from beq_eq_false_iff_ne.2 ha]
              rfl
      have hnew : ∀ bits, (Node.new e).get_scope bits
          = if e.prefixLen ≤ bits then some (scopeOf e) else none := by
        intro bits
        show ([scopeOf e].find? (fun s => s.scope ≤ bits)) = _
        by_cases hpb : e.prefixLen ≤ bits
        · rw [if_pos hpb, List.find?_cons_of_pos _ (by simpa using hpb)]
        · rw [if_neg hpb, List.find?_cons_of_neg _ (by simpa using hpb),
            List.find?_nil]
      refine ⟨?_, ?_, ?_⟩
      · intro a bits
        rw [getScopeAt, hlk a, bestSlot_append]
        by_cases ha : a = e.addr
        · subst ha
          have hbnone : bestSlot pre e.addr bits = none := by
            have hf : List.filter
                (fun f => f.addr == e.addr && decide (f.prefixLen ≤ bits)) pre
                = [] := by
              rw [List.filter_eq_nil_iff]
              intro f hf hb
              rw [Bool.and_eq_true] at hb
              exact hnopre ⟨f, hf, beq_iff_eq.1 hb.1⟩
            rw [bestSlot, hf, lastMax]
          rw [if_pos rfl, Option.some_bind, hnew bits, hbnone]
          by_cases hpb : e.prefixLen ≤ bits
          · rw [if_pos hpb,
              if_pos (show e.addr = e.addr ∧ e.prefixLen ≤ bits from ⟨rfl, hpb⟩),
              stepBest, if_pos (show (scopeOf e).scope ≤ bits from hpb)]
          · rw [if_neg hpb, if_neg (fun hc => hpb hc.2)]
        · rw [if_neg ha, if_neg (fun hc => ha hc.1.symm)]
          exact h1 a bits
      · intro a node' hLk
        rw [hlk a] at hLk
        by_cases ha : a = e.addr
        · rw [if_pos ha] at hLk
          rw [← Option.some.inj hLk]
          show SD (Node.new e).scopes
          exact List.pairwise_singleton _ _
        · rw [if_neg ha] at hLk
          exact h2 a node' hLk
      · intro a
        rw [hlk a]
        by_cases ha : a = e.addr
        · subst ha
          rw [if_pos rfl]
          exact iff_of_true rfl
            ⟨e, List.mem_append.2 (Or.inr (List.mem_singleton.2 rfl)), rfl⟩
        · rw [if_neg ha, h3 a]
          constructor
          · rintro ⟨f, hf, hfa⟩
            exact ⟨f, List.mem_append.2 (Or.inl hf), hfa⟩
          · rintro ⟨f, hf, hfa⟩
            rcases List.mem_append.1 hf with hf' | hf'
            · exact ⟨f, hf', hfa⟩
            · rw [List.mem_singleton.1 hf'] at hfa
              exact absurd hfa.symm ha

theorem buildInv_empty : BuildInv [] [] := by
  refine ⟨fun a bits => rfl, ?_, ?_⟩
  · intro a node h
    simp [List.lookup] at h
  · intro a
    simp [List.lookup]

theorem buildInv_fold : ∀ (cfg pre : List SubnetSpec) (nets : List (Nat × Node)),
    BuildInv pre nets → BuildInv (pre ++ cfg) (cfg.foldl netsAdd nets) := by
  intro cfg
  induction cfg with
  | nil =>
      intro pre nets h
      rw [List.append_nil]
      exact h
  | cons e cfg ih =>
      intro pre nets h
      rw [List.foldl_cons]
      have hstep := ih (pre ++ [e]) (netsAdd nets e) (buildInv_step pre nets e h)
      rw [List.append_assoc, List.singleton_append] at hstep
      exact hstep

/-- What the built structure answers at any slot: exactly the slot-local
selection over the whole configuration. -/
theorem getScopeAt_netsBuild (cfg : List SubnetSpec) (a bits : Nat) :
    getScopeAt (netsBuild cfg) a bits = bestSlot cfg a bits := by
  have hfold := buildInv_fold cfg [] [] buildInv_empty
  rw [List.nil_append] at hfold
  exact hfold.1 a bits

theorem chop_div (A : Nat) {i j : Nat} (h : i ≤ j) :
    chop A i / 2 ^ j = A / 2 ^ j := by
  rw [chop]
  have h1 : (2 : Nat) ^ j = 2 ^ i * 2 ^ (j - i) := by
    rw [← pow_add]
    congr 1
    omega
  rw [h1, ← Nat.div_div_eq_div_mul, Nat.mul_div_cancel _ (Nat.two_pow_pos i),
    Nat.div_div_eq_div_mul, ← pow_add]

theorem testBit_chop (A i j : Nat) :
    (chop A i).testBit j = (decide (i ≤ j) && A.testBit j) := by
  by_cases hij : i ≤ j
  · rw [Nat.testBit_to_div_mod, Nat.testBit_to_div_mod, chop_div A hij,
      decide_eq_true hij, Bool.true_and]
  · have hpow : (2 : Nat) ^ (i - j - 1) * 2 * 2 ^ j = 2 ^ i := by
      rw [mul_assoc, mul_comm (2 : Nat) (2 ^ j), ← pow_succ, ← pow_add]
      congr 1
      omega
    have hrepr : chop A i = A / 2 ^ i * 2 ^ (i - j - 1) * 2 * 2 ^ j := by
      rw [chop, ← hpow]
      ring
    have hdiv : chop A i / 2 ^ j % 2 = 0 := by
      rw [hrepr, Nat.mul_div_cancel _ (Nat.two_pow_pos j), Nat.mul_mod_left]
    rw [Nat.testBit_to_div_mod, hdiv, decide_eq_false hij, Bool.false_and]
    rfl

theorem chop_land (A i : Nat) (hA : A < 2 ^ 32) (hi : i ≤ 32) :
    Nat.land A (Nat.xor (2 ^ 32 - 1) (2 ^ i - 1)) = chop A i := by
  apply Nat.eq_of_testBit_eq
  intro j
  show (A &&& ((2 ^ 32 - 1) ^^^ (2 ^ i - 1))).testBit j = _
  rw [Nat.testBit_land, Nat.testBit_xor, Nat.testBit_two_pow_sub_one,
    Nat.testBit_two_pow_sub_one, testBit_chop]
  by_cases hj32 : j < 32
  · by_cases hji : j < i
    · rw [decide_eq_true hj32, decide_eq_true hji,
        decide_eq_false (show ¬ i ≤ j by omega)]
      simp
    · rw [decide_eq_true hj32, decide_eq_false hji,
        decide_eq_true (show i ≤ j by omega)]
      simp [Bool.and_comm]
  · have hbit : A.testBit j = false :=
      Nat.testBit_lt_two_pow
        (lt_of_lt_of_le hA (Nat.pow_le_pow_right (by norm_num) (by omega)))
    rw [hbit, decide_eq_false hj32, decide_eq_false (show ¬ j < i by omega)]
    simp

theorem chop_eq_self_of_mod {A k : Nat} (h : A % 2 ^ k = 0) : chop A k = A :=
  Nat.div_mul_cancel (Nat.dvd_of_mod_eq_zero h)

theorem chop_chop (A : Nat) {i j : Nat} (h : i ≤ j) :
    chop (chop A i) j = chop A j := by
  show chop A i / 2 ^ j * 2 ^ j = chop A j
  rw [chop_div A h]
  rfl

theorem chop_between {A i j k : Nat} (hij : chop A i = chop A j)
    (hik : i ≤ k) (hkj : k ≤ j) : chop A k = chop A i := by
  have hmod : chop A j % 2 ^ k = 0 :=
    Nat.mod_eq_zero_of_dvd (dvd_trans (pow_dvd_pow 2 hkj) (dvd_mul_left _ _))
  calc chop A k = chop (chop A i) k := (chop_chop A hik).symm
    _ = chop (chop A j) k := by rw [hij]
    _ = chop A j := chop_eq_self_of_mod hmod
    _ = chop A i := hij.symm

theorem containsAddr_iff {e : SubnetSpec} {A : Nat}
    (he : e.addr % 2 ^ (32 - e.prefixLen) = 0) :
    containsAddr e A = true ↔ chop A (32 - e.prefixLen) = e.addr := by
  rw [containsAddr, beq_iff_eq]
  constructor
  · intro h
    rw [chop, h, Nat.div_mul_cancel (Nat.dvd_of_mod_eq_zero he)]
  · intro h
    have h2 : chop A (32 - e.prefixLen) / 2 ^ (32 - e.prefixLen)
        = A / 2 ^ (32 - e.prefixLen) := chop_div A le_rfl
    rw [← h2, h]

theorem findSome?_congr {α β : Type} (f g : α → Option β) :
    ∀ l : List α, (∀ x ∈ l, f x = g x) → l.findSome? f = l.findSome? g := by
  intro l
  induction l with
  | nil => intro _; rfl
  | cons x xs ih =>
      intro h
      rw [List.findSome?_cons, List.findSome?_cons, h x (List.mem_cons_self _ _),
        ih (fun y hy => h y (List.mem_cons_of_mem _ hy))]

theorem findSome?_range_first {β : Type} (f : Nat → Option β) (n i₀ : Nat)
    (h₀ : i₀ < n) (v : β) (hv : f i₀ = some v)
    (hdom : ∀ i < i₀, f i = none ∨ f i = some v) :
    (List.range n).findSome? f = some v := by
  have hsplit : List.range n
      = List.range i₀ ++ (List.range (n - i₀)).map (fun x => i₀ + x) := by
    rw [← List.range_add]
    congr 1
    omega
  rw [hsplit, List.findSome?_append]
  cases hpre : (List.range i₀).findSome? f with
  | some w =>
      obtain ⟨i, hi, hfi⟩ := List.exists_of_findSome?_eq_some hpre
      rcases hdom i (List.mem_range.1 hi) with hn | hs
      · rw [hn] at hfi
        cases hfi
      · rw [hs] at hfi
        show some w = some v
        rw [← hfi]
  | none =>
      rw [Option.none_or, List.findSome?_map]
      have hn0 : n - i₀ = (n - i₀ - 1) + 1 := by omega
      rw [hn0, List.range_succ_eq_map, List.findSome?_cons]
      have hf0 : (f ∘ fun x => i₀ + x) 0 = some v := by
        show f (i₀ + 0) = some v
        rw [Nat.add_zero]
        exact hv
      rw [hf0]

theorem lastMax_le (M : Nat) :
    ∀ (l : List SubnetSpec) (acc : Option Scope),
      (∀ s, acc = some s → s.scope ≤ M) → (∀ f ∈ l, f.prefixLen ≤ M) →
      ∀ s, lastMax acc l = some s → s.scope ≤ M := by
  intro l
  induction l with
  | nil =>
      intro acc hacc _ s hs
      cases acc with
      | none => exact hacc s hs
      | some u => exact hacc s hs
  | cons e es ih =>
      intro acc hacc hl s hs
      have hes : ∀ f ∈ es, f.prefixLen ≤ M :=
        fun f hf => hl f (List.mem_cons_of_mem _ hf)
      have hescope : ∀ t : Scope, some (scopeOf e) = some t → t.scope ≤ M := by
        intro t ht
        rw [← Option.some.inj ht]
        exact hl e (List.mem_cons_self _ _)
      cases acc with
      | none =>
          rw [lastMax] at hs
          exact ih (some (scopeOf e)) hescope hes s hs
      | some u =>
          rw [lastMax] at hs
          by_cases hu : u.scope ≤ e.prefixLen
          · rw [if_pos hu] at hs
            exact ih (some (scopeOf e)) hescope hes s hs
          · rw [if_neg hu] at hs
            refine ih (some u) ?_ hes s hs
            intro t ht
            rw [← Option.some.inj ht]
            exact hacc u rfl

theorem lastMax_stay (s : Scope) :
    ∀ l : List SubnetSpec, (∀ f ∈ l, f.prefixLen < s.scope) →
      lastMax (some s) l = some s := by
  intro l
  induction l with
  | nil => intro _; rfl
  | cons e es ih =>
      intro h
      rw [lastMax, if_neg (not_le.2 (h e (List.mem_cons_self _ _)))]
      exact ih (fun f hf => h f (List.mem_cons_of_mem _ hf))

theorem lastMax_last_max (l₁ : List SubnetSpec) (e : SubnetSpec)
    (l₂ : List SubnetSpec) (h1 : ∀ f ∈ l₁, f.prefixLen ≤ e.prefixLen)
    (h2 : ∀ f ∈ l₂, f.prefixLen < e.prefixLen) :
    lastMax none (l₁ ++ e :: l₂) = some (scopeOf e) := by
  rw [lastMax_append]
  cases hacc : lastMax none l₁ with
  | none =>
      rw [lastMax]
      exact lastMax_stay (scopeOf e) l₂ h2
  | some u =>
      have hu : u.scope ≤ e.prefixLen :=
        lastMax_le e.prefixLen l₁ none (fun s hs => by cases hs) h1 u hacc
      rw [lastMax, if_pos hu]
      exact lastMax_stay (scopeOf e) l₂ h2

theorem exists_last_with (P : SubnetSpec → Prop) :
    ∀ (l : List SubnetSpec), (∃ x ∈ l, P x) →
      ∃ l₁ x l₂, l = l₁ ++ x :: l₂ ∧ P x ∧ ∀ f ∈ l₂, ¬ P f := by
  intro l
  induction l with
  | nil =>
      rintro ⟨x, hx, _⟩
      simp at hx
  | cons y ys ih =>
      intro hex
      by_cases hys : ∃ x ∈ ys, P x
      · obtain ⟨l₁, x, l₂, heq, hx, hl₂⟩ := ih hys
        exact ⟨y :: l₁, x, l₂, by rw [heq, List.cons_append], hx, hl₂⟩
      · obtain ⟨x, hx, hPx⟩ := hex
        rcases List.mem_cons.1 hx with rfl | hx'
        · exact ⟨[], x, ys, rfl, hPx, fun f hf hPf => hys ⟨f, hf, hPf⟩⟩
        · exact absurd ⟨x, hx', hPx⟩ hys

theorem exists_max_prefixLen :
    ∀ (x : SubnetSpec) (l : List SubnetSpec),
      ∃ e ∈ x :: l, ∀ f ∈ x :: l, f.prefixLen ≤ e.prefixLen := by
  intro x l
  induction l generalizing x with
  | nil =>
      refine ⟨x, List.mem_cons_self _ _, ?_⟩
      intro f hf
      rcases List.mem_cons.1 hf with rfl | hf'
      · exact le_rfl
      · simp at hf'
  | cons y ys ih =>
      obtain ⟨e, he, hmax⟩ := ih y
      by_cases hxe : x.prefixLen ≤ e.prefixLen
      · refine ⟨e, List.mem_cons_of_mem _ he, ?_⟩
        intro f hf
        rcases List.mem_cons.1 hf with rfl | hf'
        · exact hxe
        · exact hmax f hf'
      · refine ⟨x, List.mem_cons_self _ _, ?_⟩
        intro f hf
        rcases List.mem_cons.1 hf with rfl | hf'
        · exact le_rfl
        · exact le_trans (hmax f hf') (le_of_lt (not_le.1 hxe))

/-- A configured entry sitting at `find`'s masked address with a prefix of
at most `32 - i` bits really contains the address (its network address is
the `32 - prefixLen`-bit chop of `A`). -/
theorem slot_entry_contains {cfg : List SubnetSpec} {A : Nat}
    (hwf : NetsWF cfg) {i : Nat} (hi : i ≤ 32) {g : SubnetSpec} (hg : g ∈ cfg)
    (haddr : g.addr = chop A i) (hq : g.prefixLen ≤ 32 - i) :
    containsAddr g A = true ∧ chop A i = chop A (32 - g.prefixLen) := by
  obtain ⟨hq1, hq32, _, hmask⟩ := hwf g hg
  have hik : i ≤ 32 - g.prefixLen := by omega
  have hchop : chop A (32 - g.prefixLen) = g.addr := by
    calc chop A (32 - g.prefixLen)
        = chop (chop A i) (32 - g.prefixLen) := (chop_chop A hik).symm
      _ = chop g.addr (32 - g.prefixLen) := by rw [haddr]
      _ = g.addr := chop_eq_self_of_mod hmask
  exact ⟨(containsAddr_iff hmask).2 hchop, haddr.symm.trans hchop.symm⟩

/-- The slot filter at iteration `i` only retains containing entries, so
filtering the containing entries first changes nothing. -/
theorem slotFilter_eq (cfg : List SubnetSpec) (A : Nat) (hwf : NetsWF cfg)
    (i : Nat) (hi : i ≤ 32) :
    cfg.filter (fun f => f.addr == chop A i && decide (f.prefixLen ≤ 32 - i))
      = (cfg.filter (fun e => containsAddr e A)).filter
          (fun f => f.addr == chop A i && decide (f.prefixLen ≤ 32 - i)) := by
  rw [List.filter_filter]
  apply List.filter_congr
  intro f hf
  cases hPf : (f.addr == chop A i && decide (f.prefixLen ≤ 32 - i)) with
  | false => rw [Bool.false_and]
  | true =>
      rw [Bool.true_and]
      have hb := hPf
      rw [Bool.and_eq_true, beq_iff_eq, decide_eq_true_eq] at hb
      exact ((slot_entry_contains hwf hi hf hb.1 hb.2).1).symm

/-- C1 counterexample: the configuration `[0.0.0.0/0]` contains every
address, yet for any address with the top bit set — here `2^31 =
128.0.0.0` — `Nets.find` returns `None`: `find`'s `range(32)` masks at
most 31 low bits, so the all-masked slot of a /0 network is never
probed. -/
theorem find_slash_zero_counterexample :
    Nets.find (netsBuild [⟨0, 0, "always", "", 0⟩]) (2 ^ 31) = none ∧
    specFind [⟨0, 0, "always", "", 0⟩] (2 ^ 31)
      = some ⟨0, 0, "always", ""⟩ := by
  constructor
  · decide
  · decide

/-- C1 (amended): on a well-formed configuration — every entry a real
subnet with prefix length between 1 and 32, its network address masked and
32-bit — and any 32-bit address, `Nets.find` returns exactly the spec's
answer: the scope of the longest-prefix configured network containing the
address, ties at an equal (address, prefix) slot going to the last
inserted entry, and `None` when no network contains it.  (Prefix 0 must be
excluded: `find` never builds the fully-masked effective address, so a
`/0` entry is unreachable for addresses with the top bit set.) -/
theorem find_eq_specFind (cfg : List SubnetSpec) (A : Nat) (hwf : NetsWF cfg)
    (hA : A < 2 ^ 32) : Nets.find (netsBuild cfg) A = specFind cfg A := by
  have hfind0 : Nets.find (netsBuild cfg) A
      = (List.range 32).findSome? (fun i =>
          getScopeAt (netsBuild cfg)
            (Nat.land A (Nat.xor (2 ^ 32 - 1) (2 ^ i - 1))) (32 - i)) := by
    rw [Nets.find]
    apply findSome?_congr
    intro i _
    show (match (netsBuild cfg).lookup
        (Nat.land A (Nat.xor (2 ^ 32 - 1) (2 ^ i - 1))) with
      | none => none
      | some node => node.get_scope (32 - i)) = _
    cases hlk : (netsBuild cfg).lookup
        (Nat.land A (Nat.xor (2 ^ 32 - 1) (2 ^ i - 1))) with
    | none =>
        rw [getScopeAt, hlk]
        rfl
    | some node =>
        rw [getScopeAt, hlk]
        rfl
  have hfind : Nets.find (netsBuild cfg) A
      = (List.range 32).findSome? (fun i => bestSlot cfg (chop A i) (32 - i)) := by
    rw [hfind0]
    apply findSome?_congr
    intro i hi
    rw [getScopeAt_netsBuild, chop_land A i hA (le_of_lt (List.mem_range.1 hi))]
  rw [hfind, specFind]
  cases hC : cfg.filter (fun e => containsAddr e A) with
  | nil =>
      rw [lastMax]
      refine List.findSome?_eq_none_iff.2 ?_
      intro i hi
      have hi32 : i ≤ 32 := le_of_lt (List.mem_range.1 hi)
      have hfe : cfg.filter
          (fun f => f.addr == chop A i && decide (f.prefixLen ≤ 32 - i)) = [] := by
        rw [List.filter_eq_nil_iff]
        intro g hg hb
        rw [Bool.and_eq_true, beq_iff_eq, decide_eq_true_eq] at hb
        have hcont := (slot_entry_contains hwf hi32 hg hb.1 hb.2).1
        have hgC : g ∈ cfg.filter (fun e => containsAddr e A) :=
          List.mem_filter.2 ⟨hg, hcont⟩
        rw [hC] at hgC
        simp at hgC
      rw [bestSlot, hfe, lastMax]
  | cons c0 crest =>
      obtain ⟨em, hem, hmax⟩ := exists_max_prefixLen c0 crest
      obtain ⟨l₁, estar, l₂, heq, hP, hl₂⟩ :=
        exists_last_with (fun f => f.prefixLen = em.prefixLen) (c0 :: crest)
          ⟨em, hem, rfl⟩
      have hmaxM : ∀ f ∈ c0 :: crest, f.prefixLen ≤ estar.prefixLen :=
        fun f hf => hP ▸ hmax f hf
      have hestarC : estar ∈ c0 :: crest := by
        rw [heq]
        exact List.mem_append.2 (Or.inr (List.mem_cons_self _ _))
      have hmemf : estar ∈ cfg.filter (fun e => containsAddr e A) := by
        rw [hC]
        exact hestarC
      obtain ⟨hestarcfg, hcontstar⟩ := List.mem_filter.1 hmemf
      obtain ⟨hM1, hM32, hAe, hmaske⟩ := hwf estar hestarcfg
      have hc₀ : chop A (32 - estar.prefixLen) = estar.addr :=
        (containsAddr_iff hmaske).1 hcontstar
      have hAny : ∀ bits, estar.prefixLen ≤ bits →
          lastMax none ((c0 :: crest).filter
            (fun f => f.addr == estar.addr && decide (f.prefixLen ≤ bits)))
          = some (scopeOf estar) := by
        intro bits hMbits
        rw [heq, List.filter_append, List.filter_cons]
        have hPe : (estar.addr == estar.addr
            && decide (estar.prefixLen ≤ bits)) = true := by
          rw [Bool.and_eq_true, beq_iff_eq, decide_eq_true_eq]
          exact ⟨rfl, hMbits⟩
        rw [if_pos hPe]
        apply lastMax_last_max
        · intro f hf
          have hfC : f ∈ c0 :: crest := by
            rw [heq]
            exact List.mem_append.2 (Or.inl (List.mem_filter.1 hf).1)
          exact hmaxM f hfC
        · intro f hf
          have hfl₂ : f ∈ l₂ := (List.mem_filter.1 hf).1
          have hfC : f ∈ c0 :: crest := by
            rw [heq]
            exact List.mem_append.2 (Or.inr (List.mem_cons_of_mem _ hfl₂))
          exact lt_of_le_of_ne (hmaxM f hfC) (fun he => hl₂ f hfl₂ (he.trans hP))
      have hspec : lastMax none (c0 :: crest) = some (scopeOf estar) := by
        rw [heq]
        apply lastMax_last_max
        · intro f hf
          have hfC : f ∈ c0 :: crest := by
            rw [heq]
            exact List.mem_append.2 (Or.inl hf)
          exact hmaxM f hfC
        · intro f hf
          have hfC : f ∈ c0 :: crest := by
            rw [heq]
            exact List.mem_append.2 (Or.inr (List.mem_cons_of_mem _ hf))
          exact lt_of_le_of_ne (hmaxM f hfC) (fun he => hl₂ f hf (he.trans hP))
      rw [hspec]
      have hv : bestSlot cfg (chop A (32 - estar.prefixLen))
          (32 - (32 - estar.prefixLen)) = some (scopeOf estar) := by
        rw [bestSlot, slotFilter_eq cfg A hwf (32 - estar.prefixLen) (by omega),
          hC, hc₀]
        have h32 : 32 - (32 - estar.prefixLen) = estar.prefixLen := by omega
        rw [h32]
        exact hAny estar.prefixLen le_rfl
      refine findSome?_range_first _ 32 (32 - estar.prefixLen) (by omega)
        (scopeOf estar) hv ?_
      intro i hilt
      cases hD : cfg.filter
          (fun f => f.addr == chop A i && decide (f.prefixLen ≤ 32 - i)) with
      | nil =>
          left
          rw [bestSlot, hD, lastMax]
      | cons g0 grest =>
          right
          have hg0mem : g0 ∈ cfg.filter
              (fun f => f.addr == chop A i && decide (f.prefixLen ≤ 32 - i)) := by
            rw [hD]
            exact List.mem_cons_self _ _
          obtain ⟨hg0cfg, hg0P⟩ := List.mem_filter.1 hg0mem
          rw [Bool.and_eq_true, beq_iff_eq, decide_eq_true_eq] at hg0P
          obtain ⟨hcontg0, hchopg0⟩ :=
            slot_entry_contains hwf (by omega) hg0cfg hg0P.1 hg0P.2
          have hg0C : g0 ∈ c0 :: crest := by
            rw [← hC]
            exact List.mem_filter.2 ⟨hg0cfg, hcontg0⟩
          have hq : g0.prefixLen ≤ estar.prefixLen := hmaxM g0 hg0C
          obtain ⟨hg01, hg032, _, _⟩ := hwf g0 hg0cfg
          have hi₀chop : chop A (32 - estar.prefixLen) = chop A i :=
            chop_between hchopg0 (by omega) (by omega)
          have hcichop : chop A i = estar.addr := hi₀chop.symm.trans hc₀
          rw [bestSlot, slotFilter_eq cfg A hwf i (by omega), hC, hcichop]
          exact hAny (32 - i) (by omega)

theorem find_eq_specFind_witness :
    NetsWF [⟨167772160, 8, "always", "", 1⟩, ⟨167837696, 16, "never", "", 2⟩] ∧
    (167837697 : Nat) < 2 ^ 32 ∧
    Nets.find (netsBuild
        [⟨167772160, 8, "always", "", 1⟩, ⟨167837696, 16, "never", "", 2⟩])
        167837697
      = specFind
        [⟨167772160, 8, "always", "", 1⟩, ⟨167837696, 16, "never", "", 2⟩]
        167837697 :=
  ⟨by unfold NetsWF; decide, by norm_num,
    find_eq_specFind _ 167837697 (by unfold NetsWF; decide) (by norm_num)⟩

end RearView
